import Mathlib

/-!
Verification of the Connect-6 engine (`src/board.py`, `src/game_logic.py`,
`src/heuristics.py`, `src/minimax.py`, `src/alpha_beta.py`) against its
natural-language specification.

The Python data structures are embedded shallowly:
* the board grid is a `List (List Char)` (cells `'.'`, `'X'`, `'O'`);
* the Python `set` of available moves is represented canonically as a
  sorted duplicate-free list of coordinates (Python's set-iteration order is
  unspecified, so a canonical enumeration order is fixed here);
* in-place mutation becomes explicit state passing: functions that mutate a
  game return the new game;
* `try`/`except` around list indexing becomes `Except Unit`.
-/

namespace C6V

/-- Coordinates of board cells; the Python code uses `(x, y)` int tuples. -/
abbrev Coord := Nat × Nat

/-- Turn inputs may be arbitrary integers (out-of-bounds moves are validated). -/
abbrev ICoord := Int × Int

/-- Lexicographic order on coordinates: Python tuple comparison used by `sorted`. -/
def coordLe (a b : Coord) : Bool :=
  a.1 < b.1 || (a.1 == b.1 && a.2 ≤ b.2)

/-- Insert into a sorted duplicate-free coordinate list (models `set.add`). -/
def insertSorted (m : Coord) : List Coord → List Coord
  | [] => [m]
  | c :: rest =>
    if m = c then c :: rest
    else if coordLe m c then m :: c :: rest
    else c :: insertSorted m rest

/-- Canonical sorted duplicate-free list of a list of coordinates (models a
Python `set` literal / comprehension, enumerated in sorted order). -/
def sortDedup (l : List Coord) : List Coord :=
  l.foldl (fun acc m => insertSorted m acc) []

/-- Chebyshev distance between two cells (`_chebyshev` in `src/minimax.py`). -/
def chebyshev (a b : Coord) : Nat :=
  max (max (a.1 - b.1) (b.1 - a.1)) (max (a.2 - b.2) (b.2 - a.2))

/-! ## Modelled constants

`src/constants.py` is imported throughout the sources but is not present in
the repository snapshot; its values are modelled from the spec and from the
defaults visible in the sources. -/

/-- Modelled from the spec: `EMPTY` from the missing `src/constants.py`;
`src/board.py` itself compares cells against the literal `'.'`. -/
def cEMPTY : Char := '.'

/-- Modelled from the spec: `AI` from the missing `src/constants.py`; the
engine's stone color, `'O'` per the `Connect6Game` defaults. -/
def cAI : Char := 'O'

/-- Modelled from the spec: `PLAYER` from the missing `src/constants.py`; the
human's stone color, `'X'` per the `Connect6Game` defaults. -/
def cPLAYER : Char := 'X'

/-- Modelled from the spec: `EVAL1` from the missing `src/constants.py`; the
first evaluator's name as used by `Connect6Game`. -/
def cEVAL1 : String := "heuristic_1"

/-- Modelled from the spec: `MAX_CANDIDATES` from the missing
`src/constants.py`; the spec's candidate limit default is roughly 12-20, fixed
here at 20 (no settled claim depends on the exact value). -/
def MAX_CANDIDATES : Nat := 20

/-! ## Board (`src/board.py`) -/

/-- Board state: `size` and the `size × size` grid of cells. -/
structure Board where
  size : Nat
  grid : List (List Char)
deriving DecidableEq, Repr

namespace Board

/-- Read `grid[x][y]` for natural indices (all reads in the sources are
bounds-guarded; the default is never observable on square grids). -/
def cell (b : Board) (x y : Nat) : Char :=
  ((b.grid.getD x []).getD y '.')

/-- Read `grid[x][y]` at integer coordinates; only used under bounds guards. -/
def cellI (b : Board) (x y : Int) : Char :=
  if 0 ≤ x ∧ 0 ≤ y then b.cell x.toNat y.toNat else '.'

/-- Write `grid[x][y] = v` (out-of-range writes never happen in guarded code). -/
def setCell (b : Board) (x y : Nat) (v : Char) : Board :=
  { b with grid := b.grid.set x ((b.grid.getD x []).set y v) }

/-- Bounds test `0 <= x < size and 0 <= y < size` at integer coordinates. -/
def inBoundsI (b : Board) (x y : Int) : Prop :=
  0 ≤ x ∧ x < (b.size : Int) ∧ 0 ≤ y ∧ y < (b.size : Int)

instance (b : Board) (x y : Int) : Decidable (b.inBoundsI x y) := by
  unfold inBoundsI; infer_instance

/-- Bounds test for natural coordinates. -/
def inBounds (b : Board) (x y : Nat) : Prop := x < b.size ∧ y < b.size

instance (b : Board) (x y : Nat) : Decidable (b.inBounds x y) := by
  unfold inBounds; infer_instance

/-- Translation of `Board.is_valid_move`. -/
def isValidMove (b : Board) (x y : Int) : Bool :=
  decide (b.inBoundsI x y) && (b.cellI x y == '.')

/-- Translation of `Board.place_move`: place if valid, report success. -/
def placeMove (b : Board) (x y : Int) (player : Char) : Board × Bool :=
  if b.isValidMove x y then (b.setCell x.toNat y.toNat player, true) else (b, false)

/-- Translation of `Board.undo_move`. -/
def undoMove (b : Board) (x y : Nat) : Board × Bool :=
  if b.cell x y ≠ '.' then (b.setCell x y '.', true) else (b, false)

/-- Translation of `Board.is_full`: every cell of every row is non-empty. -/
def isFull (b : Board) : Bool :=
  b.grid.all (fun row => row.all (fun c => c ≠ '.'))

/-- Modelled from the spec: `Board.get_empty_cells_count` is called by
`Connect6Game.is_draw` but is absent from `src/board.py`; per the spec's
draw rule it is the number of empty cells remaining on the board. -/
def getEmptyCellsCount (b : Board) : Nat :=
  (b.grid.map (fun row => row.countP (fun c => c = '.'))).sum

/-- A fresh `size × size` grid of empty cells (`Board.__init__`). -/
def init (size : Nat) : Board :=
  { size := size, grid := List.replicate size (List.replicate size '.') }

/-- Well-formed board: the grid is an actual `size × size` matrix. -/
def Square (b : Board) : Prop :=
  b.grid.length = b.size ∧ ∀ row ∈ b.grid, row.length = b.size

instance (b : Board) : Decidable (b.Square) := by
  unfold Square; infer_instance

end Board

end C6V

namespace C6V

/-! ## Game state (`src/game_logic.py`, class `Connect6Game`) -/

/-- Game state: the fields of `Connect6Game`. `last_human_moves` is `none`
while the Python attribute does not exist yet. -/
structure Game where
  board : Board
  current_player : Char
  first_move : Bool
  human_player : Char
  ai_player : Char
  ai_algorithm : String
  heuristic : String
  last_row : Option Nat
  last_col : Option Nat
  available_moves : List Coord
  last_human_moves : Option (List Coord)
deriving DecidableEq, Repr

/-- Row-major enumeration of all cells, the initial `available_moves` set. -/
def allCoords (n : Nat) : List Coord :=
  (List.range n).flatMap (fun i => (List.range n).map (fun j => (i, j)))

/-- Translation of `Connect6Game.__init__`. -/
def Game.init (size : Nat) (human ai : Char) (alg heur : String) : Game :=
  { board := Board.init size, current_player := 'X', first_move := true,
    human_player := human, ai_player := ai, ai_algorithm := alg,
    heuristic := heur, last_row := none, last_col := none,
    available_moves := allCoords size, last_human_moves := none }

namespace Game

/-- Translation of `Connect6Game.switch_player`. -/
def switchPlayer (g : Game) : Game :=
  { g with current_player := if g.current_player = 'X' then 'O' else 'X' }

/-- The opposite of `'X'`/`'O'` as computed throughout the sources. -/
def otherOf (p : Char) : Char := if p = 'X' then 'O' else 'X'

/-- Translation of `Connect6Game.get_available_moves` (the Python set is
enumerated in this model's canonical sorted order). -/
def getAvailableMoves (g : Game) : List Coord := g.available_moves

/-- Translation of `Connect6Game._remove_move` for in-board coordinates. -/
def removeMove (g : Game) (m : Coord) : Game :=
  { g with available_moves := g.available_moves.erase m }

/-- Translation of `Connect6Game._remove_move` at integer coordinates
(`set.discard` of a tuple that cannot be present is a no-op). -/
def removeMoveI (g : Game) (x y : Int) : Game :=
  if 0 ≤ x ∧ 0 ≤ y then g.removeMove (x.toNat, y.toNat) else g

/-- Translation of `Connect6Game._add_move`. -/
def addMove (g : Game) (x y : Nat) : Game :=
  if x < g.board.size ∧ y < g.board.size then
    { g with available_moves := insertSorted (x, y) g.available_moves }
  else g

/-- Translation of `Connect6Game.is_draw` (via the spec-modelled
`Board.getEmptyCellsCount`, see above). -/
def isDraw (g : Game) : Bool :=
  if g.board.isFull then true
  else
    let emptyCount := g.board.getEmptyCellsCount
    let boardSizeEven := g.board.size % 2 = 0
    let requiresTwoMoves := ¬ g.first_move
    if boardSizeEven ∧ emptyCount = 1 ∧ requiresTwoMoves then true else false

end Game

/-- One arm of the `while` walk in `check_winner` (and the identical walks in
the heuristics and in `check_threat_at_position`): the number of consecutive
cells equal to `p`, starting at `(i, j)` and stepping by `(di, dj)`, staying
in bounds.  The fuel is always instantiated with `board.size`, which the walk
can never exhaust starting next to an in-bounds cell. -/
def countRay (b : Board) (p : Char) (i j di dj : Int) : Nat → Nat
  | 0 => 0
  | fuel + 1 =>
    if b.inBoundsI i j ∧ b.cellI i j = p then
      1 + countRay b p (i + di) (j + dj) di dj fuel
    else 0

/-- The four direction axes used everywhere in the sources. -/
def directions : List (Int × Int) := [(1, 0), (0, 1), (1, 1), (1, -1)]

namespace Game

/-- Translation of `Connect6Game.check_winner`: reads the actual occupant of
`(x, y)`, returns `false` out of bounds or on an empty cell, and otherwise
tests whether some axis reaches a total count of at least 6. -/
def checkWinner (g : Game) (x y : Int) : Bool :=
  if ¬ g.board.inBoundsI x y then false
  else
    let player := g.board.cellI x y
    if player = '.' then false
    else
      directions.any (fun d =>
        let count := 1 + countRay g.board player (x + d.1) (y + d.2) d.1 d.2 g.board.size
          + countRay g.board player (x - d.1) (y - d.2) (-d.1) (-d.2) g.board.size
        decide (6 ≤ count))

/-- The move-placement loop of `Connect6Game.make_move_copy`. -/
def copyPlaceLoop (player : Char) : Game → List Coord → Option Coord → Game × Option Coord
  | g, [], last => (g, last)
  | g, (x, y) :: rest, _ =>
    let g1 := { g with board := (g.board.placeMove (x : Int) (y : Int) player).1 }
    let g2 := g1.removeMove (x, y)
    copyPlaceLoop player g2 rest (some (x, y))

/-- Translation of `Connect6Game.make_move_copy`: build an independent copy,
apply the moves for `player`, clear the opening flag or switch the player, and
record the last coordinates (and the human's moves, when `player` is the
human). -/
def makeMoveCopy (g : Game) (moves : List Coord) (player : Char) : Game :=
  let base : Game :=
    { board := g.board, current_player := player, first_move := g.first_move,
      human_player := g.human_player, ai_player := g.ai_player,
      ai_algorithm := g.ai_algorithm, heuristic := g.heuristic,
      last_row := none, last_col := none,
      available_moves := g.available_moves, last_human_moves := none }
  let (g1, last) := copyPlaceLoop player base moves none
  let g2 := if g1.first_move then { g1 with first_move := false } else g1.switchPlayer
  let g3 := match last with
    | some (x, y) => { g2 with last_row := some x, last_col := some y }
    | none => g2
  if player = g.human_player then { g3 with last_human_moves := some (sortDedup moves) }
  else g3

end Game

/-! ## Turn validation and application (`_validate_moves_atomic`, `play_turn`) -/

/-- Failure messages are modelled as character lists built exactly like the
Python f-strings (1-based display coordinates). -/
def msgOfParts (parts : List String) : List Char :=
  (parts.map String.toList).flatten

/-- The validation loop body of `_validate_moves_atomic` over the remaining
moves, carrying the `seen` set.  The `isinstance` guard cannot fail in this
typed embedding. -/
def validateLoop (g : Game) : List ICoord → List ICoord → Bool × List Char
  | [], _ => (true, [])
  | (x, y) :: rest, seen =>
    if ¬ g.board.inBoundsI x y then
      (false, msgOfParts ["Move (", toString (x + 1), ", ", toString (y + 1),
        ") is out of bounds. Valid indices are 1 to ", toString g.board.size, "."])
    else if g.board.cellI x y ≠ '.' then
      (false, msgOfParts ["Cell (", toString (x + 1), ", ", toString (y + 1),
        ") is already occupied."])
    else if (x, y) ∈ seen then
      (false, msgOfParts ["Duplicate move (", toString (x + 1), ", ", toString (y + 1),
        ") in the same turn."])
    else validateLoop g rest ((x, y) :: seen)

/-- Translation of `Connect6Game._validate_moves_atomic`. -/
def Game.validateMovesAtomic (g : Game) (moves : List ICoord) : Bool × List Char :=
  let required := if g.first_move then 1 else 2
  if moves.length ≠ required then
    (false, msgOfParts ["You must provide exactly ", toString required, " move(s)."])
  else validateLoop g moves []

/-- The placement loop of `play_turn`: place each stone, maintain the
available-move set, and stop immediately when a placed stone wins. -/
def playPlaceLoop : Game → List ICoord → Option ICoord → Game × Bool × Option ICoord
  | g, [], last => (g, false, last)
  | g, (x, y) :: rest, _ =>
    let g1 := { g with board := (g.board.placeMove x y g.current_player).1 }
    let g2 := g1.removeMoveI x y
    if g2.checkWinner x y then (g2, true, some (x, y))
    else playPlaceLoop g2 rest (some (x, y))

/-- The tail of `play_turn` on a completed non-winning, non-drawn placement:
clear the opening flag, record the last coordinates (and the human's moves),
and switch the player. -/
def playTurnFinish (g1 : Game) (moves : List ICoord) (last : Option ICoord) :
    Game × Bool :=
  let g2 := if g1.first_move then { g1 with first_move := false } else g1
  let g3 := match last with
    | some (x, y) =>
      let hm := sortDedup (moves.map (fun m : ICoord => (m.1.toNat, m.2.toNat)))
      let g' := { g2 with last_row := some x.toNat, last_col := some y.toNat }
      if g2.current_player = g2.human_player then
        { g' with last_human_moves := some hm }
      else g'
    | none => g2
  (g3.switchPlayer, false)

/-- Translation of `Connect6Game.play_turn`: validate atomically (no state
change on failure), place the stones in order with win checks, then check the
draw rule, clear the opening flag, record the last coordinates, and switch the
player.  Returns the new state and whether the game ended. -/
def Game.playTurn (g : Game) (moves : List ICoord) : Game × Bool :=
  let (valid, _) := g.validateMovesAtomic moves
  if ¬ valid then (g, false)
  else
    let (g1, won, last) := playPlaceLoop g moves none
    if won then (g1, true)
    else if g1.isDraw then (g1, true)
    else playTurnFinish g1 moves last

end C6V

namespace C6V

/-! ## Heuristics (`src/heuristics.py`) -/

/-- The sequence weights `{2: 1, 3: 10, 4: 100, 5: 1000}` with `.get` default 0. -/
def weightOf (count : Nat) : Int :=
  match count with
  | 2 => 1 | 3 => 10 | 4 => 100 | 5 => 1000 | _ => 0

/-- The two-sided contiguous count through `(i, j)` along axis `d`, exactly the
paired `while` walks of the heuristics and of `check_winner`. -/
def dirCount (b : Board) (p : Char) (i j : Nat) (d : Int × Int) : Nat :=
  1 + countRay b p ((i : Int) + d.1) ((j : Int) + d.2) d.1 d.2 b.size
    + countRay b p ((i : Int) - d.1) ((j : Int) - d.2) (-d.1) (-d.2) b.size

/-- Per-cell contribution of `heuristic_1`: skip empty cells, then add or
subtract the weight of each direction's count in the 2..5 band according to
whether the stone belongs to the AI. -/
def cellScore1 (g : Game) (i j : Nat) : Int :=
  let p := g.board.cell i j
  if p = '.' then 0
  else
    let isAi := p = g.ai_player
    (directions.map (fun d =>
      let count := dirCount g.board p i j d
      if 2 ≤ count ∧ count ≤ 5 then
        (if isAi then weightOf count else - weightOf count)
      else 0)).sum

/-- Translation of `heuristic_1`: the loop accumulation over all cells. -/
def heuristic1 (g : Game) : Int :=
  ((List.range g.board.size).map (fun i =>
    ((List.range g.board.size).map (fun j => cellScore1 g i j)).sum)).sum

/-- Per-cell contribution of `heuristic_2`: center-control bonus plus the
sequence weights plus the open-five threat bonus.  Python computes the bonus
in floating point as `(size - distance) * 0.1`; the model uses exact
rationals, which preserves every claim proved here (all operations involved
commute exactly with negation in IEEE arithmetic as well). -/
def cellScore2 (g : Game) (i j : Nat) : ℚ :=
  let p := g.board.cell i j
  if p = '.' then 0
  else
    let size := g.board.size
    let center := size / 2
    let isAi := p = g.ai_player
    let distance := ((i : Int) - center).natAbs + ((j : Int) - center).natAbs
    let centerBonus : ℚ := ((size : Int) - distance) * (1 / 10 : ℚ)
    let signedBonus := if isAi then centerBonus else - centerBonus
    signedBonus +
      (directions.map (fun d =>
        let count := dirCount g.board p i j d
        let seqTerm : ℚ :=
          if 2 ≤ count ∧ count ≤ 5 then
            (if isAi then (weightOf count : ℚ) else - (weightOf count : ℚ))
          else 0
        let threatTerm : ℚ :=
          if count = 5 then
            let e1x := (i : Int) + d.1 * count
            let e1y := (j : Int) + d.2 * count
            let e2x := (i : Int) - d.1 * count
            let e2y := (j : Int) - d.2 * count
            let threat :=
              (g.board.inBoundsI e1x e1y ∧ g.board.cellI e1x e1y = '.') ∨
              (g.board.inBoundsI e2x e2y ∧ g.board.cellI e2x e2y = '.')
            if threat then (if isAi then (5000 : ℚ) else -5000) else 0
          else 0
        seqTerm + threatTerm)).sum

/-- Translation of `heuristic_2`. -/
def heuristic2 (g : Game) : ℚ :=
  ((List.range g.board.size).map (fun i =>
    ((List.range g.board.size).map (fun j => cellScore2 g i j)).sum)).sum

/-- Translation of `Connect6Game.evaluate_position` (defaults to
`heuristic_1` on an unknown heuristic name). -/
def Game.evaluatePosition (g : Game) : ℚ :=
  if g.heuristic = "heuristic_1" then (heuristic1 g : ℚ)
  else if g.heuristic = "heuristic_2" then heuristic2 g
  else (heuristic1 g : ℚ)

end C6V

namespace C6V

/-! ## Minimax (`src/minimax.py`)

The module-level caches `_SIM_CACHE` and `_PROBE_CACHE` memoize the pure
functions `make_move_copy` and `evaluate_position`; the embedding inlines the
pure functions themselves (the run with fresh caches).  Every property settled
below about this search is independent of the cached scores (the forced-block
branches use only win tests on simulated children, which the caches reproduce
exactly, and the shape properties of the returned move lists do not depend on
scores at all).  The cache itself is analysed separately for claim C9. -/

namespace MM

/-- Sentinel `INF = 10**9`. -/
def INF : ℚ := 1000000000

/-- Translation of `_clamp_for_ordering` (the NaN guard cannot fire on exact
rationals). -/
def clampForOrdering (v : ℚ) : ℚ :=
  if v > 500 then 500 else if v < -500 then -500 else v

/-- Translation of `_clamp_for_leaf`. -/
def clampForLeaf (v : ℚ) : ℚ :=
  if |v| ≥ INF then v
  else if v > 10000 then 10000
  else if v < -10000 then -10000
  else v

/-- The occupied-cell set scanned by `get_candidate_moves`. -/
def occupiedCells (b : Board) : List Coord :=
  (allCoords b.size).filter (fun m => b.cell m.1 m.2 ≠ '.')

/-- Translation of `get_candidate_moves`. -/
def getCandidateMoves (g : Game) (radius : Nat) : List Coord :=
  let occupied := occupiedCells g.board
  let avail := g.getAvailableMoves
  if occupied = [] then sortDedup avail
  else
    let candidates := avail.filter (fun c => occupied.any (fun o => chebyshev c o ≤ radius))
    if candidates = [] then sortDedup avail else sortDedup candidates

/-- The `origins` set assembled from `last_human_moves` (when the attribute
exists and is non-empty) or from `last_row`/`last_col`. -/
def originsOf (g : Game) : List Coord :=
  match g.last_human_moves with
  | some (m :: ms) => sortDedup (m :: ms)
  | _ =>
    match g.last_row, g.last_col with
    | some r, some c => [(r, c)]
    | _, _ => []

/-- Translation of `get_candidate_moves_near_last_human`. -/
def getCandidateMovesNearLastHuman (g : Game) (radius : Nat) : List Coord :=
  let avail := g.getAvailableMoves
  let origins := originsOf g
  if origins = [] then []
  else sortDedup (avail.filter (fun c => origins.any (fun o => chebyshev c o ≤ radius)))

/-- Translation of `simulate` (the memoized `make_move_copy`). -/
def simulate (g : Game) (moves : List Coord) (player : Char) : Game :=
  g.makeMoveCopy moves player

/-- Translation of `is_win_after_placement`. -/
def isWinAfterPlacement (sim : Game) (m : Coord) : Bool :=
  sim.checkWinner (m.1 : Int) (m.2 : Int)

/-- The opponent single-stone immediate-win cells collected at the root
(`immediate_blockers`, rebuilt identically as the first `blocking_moves`
pass); a Python set, canonically sorted here. -/
def immediateBlockersOf (g : Game) (opponent : Char) : List Coord :=
  sortDedup (g.getAvailableMoves.filter
    (fun m => isWinAfterPlacement (simulate g [m] opponent) m))

/-- All unordered pairs of list elements, `itertools.combinations(l, 2)`. -/
def combinations2 {α : Type} : List α → List (α × α)
  | [] => []
  | x :: xs => (xs.map (fun y => (x, y))) ++ combinations2 xs

/-- Stable insertion into a list sorted by a (non-strict, total) boolean
comparison: equal elements keep their original relative order, matching
Python's stable `list.sort`. -/
def insertBy {α : Type} (le : α → α → Bool) (x : α) : List α → List α
  | [] => [x]
  | y :: ys => if le x y then x :: y :: ys else y :: insertBy le x ys

/-- Stable sort by a boolean comparison (insertion sort). -/
def sortBy {α : Type} (le : α → α → Bool) (l : List α) : List α :=
  l.foldr (insertBy le) []

/-- Order on distances where `none` plays `float('inf')`. -/
def optNatLt (a b : Option Nat) : Bool :=
  match a, b with
  | some x, some y => x < y
  | some _, none => true
  | none, _ => false

/-- Python tuple comparison on the root ordering keys
`(distance, -clamped probe, probe, coord)`. -/
def scoredLe (a b : Option Nat × ℚ × ℚ × Coord) : Bool :=
  if a.1 ≠ b.1 then optNatLt a.1 b.1
  else if a.2.1 ≠ b.2.1 then a.2.1 < b.2.1
  else if a.2.2.1 ≠ b.2.2.1 then a.2.2.1 < b.2.2.1
  else coordLe a.2.2.2 b.2.2.2

/-- Distance from a candidate to the nearest origin (`_dist_to_orig`),
`none` when there are no origins (`float('inf')`). -/
def distToOrig (origins : List Coord) (c : Coord) : Option Nat :=
  (origins.map (fun o => chebyshev c o)).min?

/-- The final fallback loop of `minimax`: first distinct available cells. -/
def takeDistinct (n : Nat) : List Coord → List Coord → List Coord
  | [], acc => acc
  | c :: rest, acc =>
    let acc' := if c ∈ acc then acc else acc ++ [c]
    if acc'.length = n then acc' else takeDistinct n rest acc'

/-- The targeted two-move opponent-threat scan (first move `a` over all
available cells, second move `b` restricted to a locality window), stopping as
soon as the blocking set becomes non-empty. -/
def targetedScan (g : Game) (opponent : Char) (origins2 : List Coord) :
    List Coord → List Coord → List Coord
  | [], acc => acc
  | a :: rest, acc =>
    let childA := simulate g [a] opponent
    if isWinAfterPlacement childA a then targetedScan g opponent origins2 rest (insertSorted a acc)
    else
      let bCands := childA.getAvailableMoves.filter
        (fun b => chebyshev b a ≤ 3 || origins2.any (fun o => chebyshev b o ≤ 3))
      let acc' :=
        match bCands.find? (fun b =>
            let childAB := simulate childA [b] opponent
            isWinAfterPlacement childAB b || isWinAfterPlacement childAB a) with
        | some b => insertSorted b (insertSorted a acc)
        | none => acc
      if acc' ≠ [] then acc' else targetedScan g opponent origins2 rest acc'

/-- The full pair scan over all available moves (boards with at most 120
empty cells): the first pair found is returned. -/
def fullPairScan (g : Game) (opponent : Char) (avail : List Coord) :
    List Coord → List Coord
  | [] => []
  | a :: rest =>
    match avail.find? (fun b => b ≠ a &&
        (let childAB := simulate g [a, b] opponent
         isWinAfterPlacement childAB a || isWinAfterPlacement childAB b)) with
    | some b => sortDedup [a, b]
    | none => fullPairScan g opponent avail rest

/-- The pair-scoring loop of `recurse`: an immediate win aborts with that
pair, otherwise each pair is scored for ordering. -/
def scorePairs (g : Game) : List (Coord × Coord) →
    Except (Coord × Coord) (List (ℚ × (Coord × Coord) × Game))
  | [] => .ok []
  | (a, b) :: rest =>
    let child := simulate g [a, b] g.current_player
    if isWinAfterPlacement child b || isWinAfterPlacement child a then .error (a, b)
    else
      match scorePairs g rest with
      | .error p => .error p
      | .ok l => .ok ((clampForOrdering child.evaluatePosition, (a, b), child) :: l)

/-- Ordering used on scored pairs: `sort(reverse=maximizing, key=t[0])`,
kept stable. -/
def pairOrder (maxi : Bool) (x y : ℚ × (Coord × Coord) × Game) : Bool :=
  if maxi then y.1 ≤ x.1 else x.1 ≤ y.1

/-- The candidate cells considered by the inner `recurse` of `minimax` (the
`local_candidates` computation). -/
def localCandOf (g : Game) (radius maxCandidates : Nat) : List Coord :=
  let localAvail := g.getAvailableMoves
  let focused := getCandidateMovesNearLastHuman g 3
  let localCand0 :=
    if focused ≠ [] then focused.filter (· ∈ localAvail)
    else (getCandidateMoves g radius).filter (· ∈ localAvail)
  let localCand1 := if localCand0 = [] then localAvail else localCand0
  if maxCandidates ≠ 0 ∧ localCand1.length > maxCandidates then
    localCand1.take maxCandidates
  else localCand1

/-- The two-stone pairs enumerated by `recurse` from its candidate cells (all
unordered candidate pairs, or one fixed first stone paired with every other
available cell when a single candidate remains). -/
def pairCandsOf (g : Game) (radius maxCandidates : Nat) : List (Coord × Coord) :=
  let localCand := localCandOf g radius maxCandidates
  if localCand.length ≥ 2 then combinations2 localCand
  else
    match localCand with
    | a :: _ => (g.getAvailableMoves.filter (· ≠ a)).map (fun b => (a, b))
    | [] => []

/-- Translation of the inner `recurse` of `minimax` (depth-indexed; the probe
cache memoizes the pure evaluator, inlined here). -/
def recurseAux (radius maxCandidates maxSecond : Nat) :
    Nat → Game → Bool → ℚ × Option (List Coord)
  | 0, g, _ =>
    if g.isDraw then (0, none) else (clampForLeaf g.evaluatePosition, none)
  | dl + 1, g, maxi =>
    if g.isDraw then (0, none)
    else
      let localCand := localCandOf g radius maxCandidates
      if localCand = [] then (g.evaluatePosition, none)
      else
        match scorePairs g (pairCandsOf g radius maxCandidates) with
        | .error p => ((if maxi then INF else -INF), some [p.1, p.2])
        | .ok scoredPairs =>
          let sortedPairs := sortBy (pairOrder maxi) scoredPairs
          let maxPairs := maxSecond * max 1 localCand.length
          let best₀ : ℚ × Option (List Coord) := (if maxi then -INF else INF, none)
          (sortedPairs.take maxPairs).foldl
            (fun best t =>
              let sc := (recurseAux radius maxCandidates maxSecond dl t.2.2 (!maxi)).1
              if maxi then
                (if sc > best.1 then (sc, some [t.2.1.1, t.2.1.2]) else best)
              else
                (if sc < best.1 then (sc, some [t.2.1.1, t.2.1.2]) else best))
            best₀

end MM

end C6V

namespace C6V

namespace MM

/-- The ranked root candidate list of `minimax`: locality-filtered cells
ordered by `(distance to origin, -clamped score, score, coordinate)` and
truncated to `max_candidates`. -/
def rootCandidates (g : Game) (radius maxCandidates : Nat) : List Coord :=
  let rootPlayer := g.current_player
  let avail := g.getAvailableMoves
  let focused := getCandidateMovesNearLastHuman g 3
  let candidates0 :=
    if focused ≠ [] then focused.filter (· ∈ avail)
    else (getCandidateMoves g radius).filter (· ∈ avail)
  let candidates1 := if candidates0 = [] then avail else candidates0
  let origins := originsOf g
  let scored := candidates1.map (fun c =>
    let ps := (simulate g [c] rootPlayer).evaluatePosition
    (distToOrig origins c, -(clampForOrdering ps), ps, c))
  let candidates2 := (sortBy scoredLe scored).map (fun t => t.2.2.2)
  if maxCandidates ≠ 0 ∧ candidates2.length > maxCandidates then
    candidates2.take maxCandidates
  else candidates2

/-- The opponent two-move-threat blocking set assembled at the root of
`minimax`: single-cell blockers, then pair scans of increasing breadth. -/
def blockingOf (g : Game) (opponent : Char) (candidates3 : List Coord) : List Coord :=
  let avail := g.getAvailableMoves
  let blocking1 := sortDedup (avail.filter
    (fun b => isWinAfterPlacement (simulate g [b] opponent) b))
  let blocking2 :=
    if blocking1 = [] then
      (combinations2 candidates3).foldl
        (fun acc p =>
          let childAB := simulate g [p.1, p.2] opponent
          if isWinAfterPlacement childAB p.1 || isWinAfterPlacement childAB p.2 then
            insertSorted p.2 (insertSorted p.1 acc)
          else acc) []
    else blocking1
  let blocking3 :=
    if blocking2 = [] then targetedScan g opponent (originsOf g) avail []
    else blocking2
  if blocking3 = [] ∧ avail.length ≤ 120 then fullPairScan g opponent avail avail
  else blocking3

/-- The last stage of the `minimax` root (reached with no blocking move
chosen): the immediate own-win scan over the ordered candidates, then the
recursive search with its legality gate and first-distinct-cells fallback. -/
def minimaxFinal (g : Game) (depth : Nat) (maximizingPlayer : Bool)
    (radius maxCandidates maxSecond : Nat) (candidates : List Coord) :
    ℚ × List Coord :=
  let required := 2
  let rootPlayer := g.current_player
  let avail := g.getAvailableMoves
  match candidates.find? (fun a => isWinAfterPlacement (simulate g [a] rootPlayer) a) with
  | some a =>
    let second :=
      match candidates.find? (fun b => b ≠ a) with
      | some b => some b
      | none => avail.find? (fun b => b ≠ a)
    (match second with
     | some b => (INF, [a, b])
     | none => (INF, [a]))
  | none =>
    let res := recurseAux radius maxCandidates maxSecond depth g maximizingPlayer
    let availNow := g.getAvailableMoves
    match res.2 with
    | some bm =>
      if bm.length = required ∧ bm.all (· ∈ availNow) then (res.1, bm)
      else (res.1, takeDistinct required availNow [])
    | none => (res.1, takeDistinct required availNow [])

/-- The root logic of `minimax` past the immediate-blockers branch: candidate
ordering, the two-move opponent-threat scans, the immediate own-win scan, the
recursive search, and the final legality gate. -/
def minimaxRest (g : Game) (depth : Nat) (maximizingPlayer : Bool)
    (radius maxCandidates maxSecond : Nat) : ℚ × List Coord :=
  let required := 2
  let rootPlayer := g.current_player
  let opponent := if rootPlayer = 'X' then 'O' else 'X'
  let candidates3 := rootCandidates g radius maxCandidates
  let blocking4 := blockingOf g opponent candidates3
  let afterBlocking : Option (ℚ × List Coord) × List Coord :=
    if blocking4 ≠ [] then
      let chosenBlockers := blocking4.take required
      if chosenBlockers ≠ [] then (some (0, chosenBlockers), candidates3)
      else
        let nc1 := candidates3.foldl
          (fun acc m => if m ∈ blocking4 ∧ m ∉ acc then acc ++ [m] else acc) []
        let nc := candidates3.foldl
          (fun acc m => if m ∉ acc then acc ++ [m] else acc) nc1
        (none, nc)
    else (none, candidates3)
  match afterBlocking with
  | (some result, _) => result
  | (none, candidates) =>
    minimaxFinal g depth maximizingPlayer radius maxCandidates maxSecond candidates

/-- Translation of `minimax` (top level): the small-board early return, the
root immediate-blockers shortcut, then `minimaxRest`. -/
def minimaxFn (g : Game) (depth : Nat) (maximizingPlayer : Bool)
    (radius maxCandidates maxSecond : Nat) : ℚ × List Coord :=
  let required := 2
  let avail := g.getAvailableMoves
  if avail.length ≤ required then (0, avail.take required)
  else
    let opponent := if g.current_player = 'X' then 'O' else 'X'
    let blockers := immediateBlockersOf g opponent
    if blockers ≠ [] then (0, blockers.take required)
    else minimaxRest g depth maximizingPlayer radius maxCandidates maxSecond

end MM

end C6V

namespace C6V

/-! ## Alpha-beta (`src/alpha_beta.py`, class `AlphaBetaPruning`)

The class mutates `self.game` in place; at its only call site
(`get_ai_move`) `self.game` and the `game` argument are the same object, so
the embedding threads a single game state through every helper.  Python list
`IndexError`s (caught by `get_ai_move`'s `except`) become `Except.error`.  The
`depth - 1` handed to `alpha_beta` is natural subtraction, matching Python for
every `max_depth ≥ 1` (at `max_depth = 0` Python recurses into negative depths
until the recursion limit and falls back; no claim depends on that case). -/

namespace AB

/-- Scores of the alpha-beta search: rationals extended with `math.inf`. -/
inductive Score where
  | ninf : Score
  | fin : ℚ → Score
  | pinf : Score
deriving DecidableEq, Repr

namespace Score

/-- Python `<=` on scores. -/
def leB : Score → Score → Bool
  | ninf, _ => true
  | _, pinf => true
  | fin q, fin r => q ≤ r
  | pinf, _ => false
  | fin _, ninf => false

/-- Python `<` on scores. -/
def ltB (a b : Score) : Bool := ! leB b a

/-- Python `max` on scores. -/
def maxS (a b : Score) : Score := if leB a b then b else a

/-- Python `min` on scores. -/
def minS (a b : Score) : Score := if leB a b then a else b

end Score

/-- Win test at the recorded last move, as at the top of `alpha_beta`. -/
def winAt (g : Game) : Bool :=
  match g.last_row, g.last_col with
  | some r, some c => g.checkWinner (r : Int) (c : Int)
  | _, _ => false

/-- Translation of `AlphaBetaPruning.__evaluate_board` (on a win the winner is
read from the grid at the last move; `win` is only `true` with both
coordinates set). -/
def evaluateBoard (heur : String) (g : Game) (win draw : Bool) : Score :=
  if win then
    let winner :=
      match g.last_row, g.last_col with
      | some r, some c => g.board.cell r c
      | _, _ => '.'
    if winner = cAI then .pinf else .ninf
  else if draw then .fin 0
  else if heur = cEVAL1 then .fin (heuristic1 g : ℚ) else .fin (heuristic2 g)

/-- The direction loop of `check_threat_at_position` with its early exit at 6. -/
def ctLoop (b : Board) (player : Char) (x y : Nat) : List (Int × Int) → Nat → Nat
  | [], m => m
  | d :: rest, m =>
    let count := dirCount b player x y d
    let m' := max m count
    if 6 ≤ m' then m' else ctLoop b player x y rest m'

/-- Translation of `check_threat_at_position`: the stone is written, measured,
and restored exactly, so the net effect is a pure read on the overridden
board. -/
def checkThreat (g : Game) (x y : Nat) (player : Char) : Nat :=
  ctLoop (g.board.setCell x y player) player x y directions 0

/-- Absolute difference of naturals, Python `abs(a - b)` on ints. -/
def natAbsDiff (a b : Nat) : Nat := max (a - b) (b - a)

/-- The ±3 neighborhood scan building the `relevant` set. -/
def relevantCells (b : Board) : List Coord :=
  let deltas : List Int := [-3, -2, -1, 0, 1, 2, 3]
  sortDedup (((allCoords b.size).filter (fun m => b.cell m.1 m.2 ≠ '.')).flatMap
    (fun m =>
      (deltas.flatMap (fun dx => deltas.map (fun dy => ((m.1 : Int) + dx, (m.2 : Int) + dy)))).filterMap
        (fun p =>
          if b.inBoundsI p.1 p.2 ∧ b.cellI p.1 p.2 = '.' then
            some (p.1.toNat, p.2.toNat)
          else none)))

/-- Order-preserving deduplication (the `seen`/`unique` loop). -/
def dedupKeepOrder (l : List Coord) : List Coord :=
  l.foldl (fun acc m => if m ∈ acc then acc else acc ++ [m]) []

/-- Translation of `AlphaBetaPruning.get_prioritized_moves`. -/
def getPrioritizedMoves (g : Game) (limit : Nat) : List Coord :=
  let allMoves := g.getAvailableMoves
  if allMoves = [] then []
  else if allMoves.length ≥ g.board.size * g.board.size - 5 then
    let center := g.board.size / 2
    (allMoves.filter (fun m => natAbsDiff m.1 center ≤ 4 ∧ natAbsDiff m.2 center ≤ 4)).take limit
  else
    let currentPlayer := if g.current_player = cAI then cAI else cPLAYER
    let opponent := if currentPlayer = cAI then cPLAYER else cAI
    let relevant := relevantCells g.board
    let movesToCheck := if relevant ≠ [] then relevant else allMoves
    let myT := fun (m : Coord) => checkThreat g m.1 m.2 currentPlayer
    let oppT := fun (m : Coord) => checkThreat g m.1 m.2 opponent
    let winningMoves := movesToCheck.filter (fun m => 6 ≤ myT m)
    let criticalBlocks := movesToCheck.filterMap (fun m =>
      if ¬ 6 ≤ myT m ∧ 5 ≤ oppT m then some (m, oppT m) else none)
    let importantBlocks := movesToCheck.filterMap (fun m =>
      if ¬ 6 ≤ myT m ∧ ¬ 5 ≤ oppT m ∧ 4 ≤ oppT m then some (m, oppT m) else none)
    let strongAttacks := movesToCheck.filterMap (fun m =>
      if ¬ 6 ≤ myT m ∧ ¬ 4 ≤ oppT m ∧ 5 ≤ myT m then some (m, myT m) else none)
    let goodAttacks := movesToCheck.filterMap (fun m =>
      if ¬ 6 ≤ myT m ∧ ¬ 4 ≤ oppT m ∧ ¬ 5 ≤ myT m ∧ 4 ≤ myT m then some (m, myT m) else none)
    let decentMoves := movesToCheck.filterMap (fun m =>
      if ¬ 6 ≤ myT m ∧ ¬ 4 ≤ oppT m ∧ ¬ 4 ≤ myT m then some (m, myT m * 10 + oppT m * 5) else none)
    let byScoreDesc := fun (a b : Coord × Nat) => decide (b.2 ≤ a.2)
    let result :=
      winningMoves ++
      (MM.sortBy byScoreDesc criticalBlocks).map Prod.fst ++
      (MM.sortBy byScoreDesc importantBlocks).map Prod.fst ++
      (MM.sortBy byScoreDesc strongAttacks).map Prod.fst ++
      (MM.sortBy byScoreDesc goodAttacks).map Prod.fst ++
      (MM.sortBy byScoreDesc decentMoves).map Prod.fst
    let unique := dedupKeepOrder result
    if limit ≠ 0 then unique.take limit else unique

/-- Translation of `AlphaBetaPruning.set_stone`: write the stone, record the
last move, and drop the cell from the available set. -/
def setStone (g : Game) (x y : Nat) (stone : Char) : Game :=
  { g with board := g.board.setCell x y stone,
           last_row := some x, last_col := some y,
           available_moves := g.available_moves.erase (x, y) }

/-- Translation of `AlphaBetaPruning.remove_stone`: blank the cell and re-add
it to the available set (with `_add_move`'s bounds guard). -/
def removeStone (g : Game) (x y : Nat) : Game :=
  Game.addMove { g with board := g.board.setCell x y '.' } x y

end AB

end C6V

namespace C6V

namespace AB

/-- The inner `for j` loop of `__max_node`: place the second AI stone, recurse,
undo, reset the last move to the first stone, update `max_score`/`alpha`, and
signal pruning when `beta <= alpha`. -/
def maxInner (recur : Game → Score → Score → Bool → Score × Game) (x1y1 : Coord) :
    Game → List Coord → Score → Score → Score → Game × Score × Score × Bool
  | g, [], α, _, ms => (g, ms, α, false)
  | g, (x2, y2) :: rest, α, β, ms =>
    let g1 := setStone g x2 y2 cAI
    let r := recur g1 α β false
    let g2 := removeStone r.2 x2 y2
    let g3 := { g2 with last_row := some x1y1.1, last_col := some x1y1.2 }
    let ms' := Score.maxS ms r.1
    let α' := Score.maxS α r.1
    if Score.leB β α' then (g3, ms', α', true)
    else maxInner recur x1y1 g3 rest α' β ms'

/-- The outer `for i` loop of `__max_node`. -/
def maxOuter (recur : Game → Score → Score → Bool → Score × Game)
    (origR origC : Option Nat) :
    Game → List Coord → Score → Score → Score → Score × Game
  | g, [], _, _, ms => (ms, { g with last_row := origR, last_col := origC })
  | g, (x1, y1) :: rest, α, β, ms =>
    let g1 := setStone g x1 y1 cAI
    match maxInner recur (x1, y1) g1 rest α β ms with
    | (g2, ms', α', pruned) =>
      let g3 := removeStone g2 x1 y1
      if pruned then (ms', { g3 with last_row := origR, last_col := origC })
      else maxOuter recur origR origC g3 rest α' β ms'

/-- Translation of `AlphaBetaPruning.__max_node`. -/
def maxNode (recur : Game → Score → Score → Bool → Score × Game)
    (g : Game) (α β : Score) : Score × Game :=
  let moves := getPrioritizedMoves g 20
  maxOuter recur g.last_row g.last_col g moves α β Score.ninf

/-- The inner `for j` loop of `__min_node`. -/
def minInner (recur : Game → Score → Score → Bool → Score × Game) (x1y1 : Coord) :
    Game → List Coord → Score → Score → Score → Game × Score × Score × Bool
  | g, [], _, β, ms => (g, ms, β, false)
  | g, (x2, y2) :: rest, α, β, ms =>
    let g1 := setStone g x2 y2 cPLAYER
    let r := recur g1 α β true
    let g2 := removeStone r.2 x2 y2
    let g3 := { g2 with last_row := some x1y1.1, last_col := some x1y1.2 }
    let ms' := Score.minS ms r.1
    let β' := Score.minS β r.1
    if Score.leB β' α then (g3, ms', β', true)
    else minInner recur x1y1 g3 rest α β' ms'

/-- The outer `for i` loop of `__min_node`. -/
def minOuter (recur : Game → Score → Score → Bool → Score × Game)
    (origR origC : Option Nat) :
    Game → List Coord → Score → Score → Score → Score × Game
  | g, [], _, _, ms => (ms, { g with last_row := origR, last_col := origC })
  | g, (x1, y1) :: rest, α, β, ms =>
    let g1 := setStone g x1 y1 cPLAYER
    match minInner recur (x1, y1) g1 rest α β ms with
    | (g2, ms', β', pruned) =>
      let g3 := removeStone g2 x1 y1
      if pruned then (ms', { g3 with last_row := origR, last_col := origC })
      else minOuter recur origR origC g3 rest α β' ms'

/-- Translation of `AlphaBetaPruning.__min_node`. -/
def minNode (recur : Game → Score → Score → Bool → Score × Game)
    (g : Game) (α β : Score) : Score × Game :=
  let moves := getPrioritizedMoves g 20
  minOuter recur g.last_row g.last_col g moves α β Score.pinf

/-- Translation of `AlphaBetaPruning.alpha_beta` by recursion on the depth. -/
def alphaBeta (heur : String) : Nat → Game → Score → Score → Bool → Score × Game
  | 0, g, _, _, _ => (evaluateBoard heur g (winAt g) g.isDraw, g)
  | d + 1, g, α, β, maxi =>
    let win := winAt g
    let draw := g.isDraw
    if draw ∨ win then (evaluateBoard heur g win draw, g)
    else if maxi then maxNode (alphaBeta heur d) g α β
    else minNode (alphaBeta heur d) g α β

/-- The IMMEDIATE WIN CHECK loop of `find_best_move`; out-of-range accesses to
`moves[0]`/`moves[1]` raise (`Except.error`). -/
def immWinScan (full : List Coord) :
    Game → List Coord → Option (Except Unit (List Coord)) × Game
  | g, [] => (none, g)
  | g, (x1, y1) :: rest =>
    if 6 ≤ checkThreat g x1 y1 cAI then
      match full.get? 0 with
      | none => (some (.error ()), g)
      | some m0 =>
        if m0 ≠ (x1, y1) then (some (.ok [(x1, y1), m0]), g)
        else
          match full.get? 1 with
          | none => (some (.error ()), g)
          | some m1 => (some (.ok [(x1, y1), m1]), g)
    else
      let g1 := setStone g x1 y1 cAI
      match rest.find? (fun m2 => 6 ≤ checkThreat g1 m2.1 m2.2 cAI) with
      | some m2 => (some (.ok [(x1, y1), m2]), removeStone g1 x1 y1)
      | none => immWinScan full (removeStone g1 x1 y1) rest

/-- The inner `for j` loop of the normal search in `find_best_move` (`beta` is
fixed at `math.inf` there and never triggers pruning). -/
def fbInner (heur : String) (d : Nat) (x1y1 : Coord) :
    Game → List Coord → Score → Score → Option (List Coord) →
    Game × Score × Score × Option (List Coord)
  | g, [], α, best, bm => (g, α, best, bm)
  | g, (x2, y2) :: rest, α, best, bm =>
    let g1 := setStone g x2 y2 cAI
    let r := alphaBeta heur d g1 α Score.pinf false
    let g2 := removeStone r.2 x2 y2
    let g3 := { g2 with last_row := some x1y1.1, last_col := some x1y1.2 }
    let upd := if Score.ltB best r.1 then (r.1, some [x1y1, (x2, y2)]) else (best, bm)
    fbInner heur d x1y1 g3 rest (Score.maxS α r.1) upd.1 upd.2

/-- The outer `for i` loop of the normal search in `find_best_move`. -/
def fbOuter (heur : String) (d : Nat) :
    Game → List Coord → Score → Score → Option (List Coord) →
    Game × Score × Option (List Coord)
  | g, [], _, best, bm => (g, best, bm)
  | g, (x1, y1) :: rest, α, best, bm =>
    let g1 := setStone g x1 y1 cAI
    match fbInner heur d (x1, y1) g1 rest α best bm with
    | (g2, α', best', bm') => fbOuter heur d (removeStone g2 x1 y1) rest α' best' bm'

/-- Translation of `AlphaBetaPruning.find_best_move`: opening shortcut,
immediate-win scan, critical-block check, then the normal bounded alpha-beta
search with its `[moves[0], moves[1]]` fallback. -/
def findBestMove (g : Game) (heur : String) (maxDepth : Nat) :
    Except Unit (List Coord) × Game :=
  if g.first_move then (.ok [(g.board.size / 2, g.board.size / 2)], g)
  else
    let moves := getPrioritizedMoves g 20
    match immWinScan moves g moves with
    | (some r, g1) => (r, g1)
    | (none, g1) =>
      let criticalThreats := (moves.take 15).filterMap (fun m =>
        let t := checkThreat g1 m.1 m.2 cPLAYER
        if 5 ≤ t then some (m, t) else none)
      if criticalThreats ≠ [] then
        let sortedCT := MM.sortBy (fun a b : Coord × Nat => decide (b.2 ≤ a.2)) criticalThreats
        match sortedCT with
        | [] => (.error (), g1)
        | ct0 :: ctRest =>
          let block1 := ct0.1
          match ctRest with
          | ct1 :: _ => (.ok [block1, ct1.1], g1)
          | [] =>
            match moves.get? 1 with
            | none => (.error (), g1)
            | some m1 =>
              if m1 ≠ block1 then (.ok [block1, m1], g1)
              else
                match moves.get? 2 with
                | none => (.error (), g1)
                | some m2 => (.ok [block1, m2], g1)
      else
        match fbOuter heur (maxDepth - 1) g1 moves Score.ninf Score.ninf none with
        | (g2, _, some bm) => (.ok bm, g2)
        | (g2, _, none) =>
          match moves.get? 0, moves.get? 1 with
          | some m0, some m1 => (.ok [m0, m1], g2)
          | _, _ => (.error (), g2)

end AB

/-! ## The engine entry point (`Connect6Game.get_ai_move`) -/

/-- Translation of `Connect6Game.get_ai_move`: empty-board early return, the
selected algorithm under the legality gate (length and availability of the
returned moves), and the first-available-cells fallback (also reached when the
alpha-beta helper raises).  The minimax path is pure; the alpha-beta path
threads the mutated state. -/
def getAiMove (g : Game) (depth : Nat) : List Coord × Game :=
  let available := g.getAvailableMoves
  if available = [] then ([], g)
  else
    let required := if g.first_move then 1 else 2
    if g.ai_algorithm = "minimax" then
      let best := (MM.minimaxFn g depth true 2 MAX_CANDIDATES 6).2
      if best ≠ [] ∧ best.length = required ∧ best.all (· ∈ available) then (best, g)
      else (available.take required, g)
    else if g.ai_algorithm = "alpha_beta" then
      match AB.findBestMove g g.heuristic depth with
      | (.ok best, g') =>
        if best ≠ [] ∧ best.length = required ∧ best.all (· ∈ available) then (best, g')
        else (available.take required, g')
      | (.error _, g') => (available.take required, g')
    else (available.take required, g)

end C6V

namespace C6V

/-! ## The probe cache (`board_state_key`, `probe_score_cached`) -/

/-- Python `'|'.join(rows)` on rows of cells. -/
def joinRows : List (List Char) → List Char
  | [] => []
  | [r] => r
  | r :: rs => r ++ '|' :: joinRows rs

/-- Translation of `board_state_key`: the joined rows followed by
`:{current_player}:{int(first_move)}`. -/
def boardStateKey (g : Game) : List Char :=
  joinRows g.board.grid ++ [':', g.current_player, ':', if g.first_move then '1' else '0']

/-- Translation of `probe_score_cached` with the module-level `_PROBE_CACHE`
made explicit: look the key up, otherwise evaluate and insert. -/
def probeScoreCached (g : Game) (cache : List (List Char × ℚ)) :
    ℚ × List (List Char × ℚ) :=
  let bk := boardStateKey g
  match cache.lookup bk with
  | some v => (v, cache)
  | none => (g.evaluatePosition, (bk, g.evaluatePosition) :: cache)

/-! ## Specification-side predicates and well-formedness -/

/-- Strict lexicographic order on coordinates. -/
def coordLt (a b : Coord) : Bool :=
  a.1 < b.1 || (a.1 == b.1 && a.2 < b.2)

/-- Well-formed game state: square grid, and the available-move set (in its
canonical sorted duplicate-free enumeration) is exactly the set of in-bounds
empty cells — the invariant the sources maintain. -/
def WF (g : Game) : Prop :=
  g.board.Square ∧
  g.available_moves.Pairwise (fun a b => coordLt a b = true) ∧
  (∀ m ∈ g.available_moves, g.board.inBounds m.1 m.2 ∧ g.board.cell m.1 m.2 = '.') ∧
  (∀ i < g.board.size, ∀ j < g.board.size, g.board.cell i j = '.' → (i, j) ∈ g.available_moves)

instance (g : Game) : Decidable (WF g) := by
  unfold WF; infer_instance

/-- Board cells are stones of the two configured players or empty, and the
players are distinct (the color invariant of any real game). -/
def StonesOk (g : Game) : Prop :=
  g.ai_player ≠ g.human_player ∧
  ∀ i < g.board.size, ∀ j < g.board.size,
    g.board.cell i j = '.' ∨ g.board.cell i j = g.ai_player ∨ g.board.cell i j = g.human_player

instance (g : Game) : Decidable (StonesOk g) := by
  unfold StonesOk; infer_instance

/-- Exchange which color is the maximizing side. -/
def swapSides (g : Game) : Game :=
  { g with ai_player := g.human_player, human_player := g.ai_player }

/-- Spec-side run predicate: the stone at `(x, y)` is part of a contiguous
same-color in-bounds run of length at least 6 along one of the four axes. -/
def HasRun6 (b : Board) (x y : Int) : Prop :=
  ∃ d ∈ directions, ∃ k1 k2 : Nat, 6 ≤ k1 + k2 + 1 ∧
    ∀ t : Int, -(k2 : Int) ≤ t → t ≤ (k1 : Int) →
      b.inBoundsI (x + t * d.1) (y + t * d.2) ∧
      b.cellI (x + t * d.1) (y + t * d.2) = b.cellI x y

/-- Grid suitable for the cache-key analysis: square, and no cell uses the
key's separator characters. -/
def GridOk (g : Game) : Prop :=
  g.board.Square ∧ ∀ row ∈ g.board.grid, ¬ '|' ∈ row ∧ ¬ ':' ∈ row

instance (g : Game) : Decidable (GridOk g) := by
  unfold GridOk; infer_instance

/-- A cache is faithful for a configuration (AI color, heuristic name, board
size) when every stored entry agrees with direct evaluation of any state of
that configuration producing its key. -/
def CacheFaithful (aiP : Char) (heurName : String) (size : Nat)
    (cache : List (List Char × ℚ)) : Prop :=
  ∀ k v, cache.lookup k = some v →
    ∀ g : Game, GridOk g → g.ai_player = aiP → g.heuristic = heurName →
      g.board.size = size → boardStateKey g = k → g.evaluatePosition = v

/-! ## Concrete states used as counterexamples and witnesses -/

/-- A grid with the given stones on an otherwise empty `size × size` board. -/
def gridWith (size : Nat) (stones : List (Coord × Char)) : List (List Char) :=
  (List.range size).map (fun i => (List.range size).map (fun j =>
    match stones.find? (fun s => s.1 = (i, j)) with
    | some s => s.2
    | none => '.'))

/-- A game over `gridWith` with the available set computed from the grid. -/
def mkGame (size : Nat) (stones : List (Coord × Char)) (current : Char)
    (first : Bool) (alg heur : String) (lr lc : Option Nat) : Game :=
  let grid := gridWith size stones
  { board := { size := size, grid := grid },
    current_player := current, first_move := first,
    human_player := 'X', ai_player := 'O', ai_algorithm := alg, heuristic := heur,
    last_row := lr, last_col := lc,
    available_moves := (allCoords size).filter
      (fun m => ((grid.getD m.1 []).getD m.2 '.') = '.'),
    last_human_moves := none }

/-- Two-stone state with a single empty cell: a two-stone turn is impossible,
yet `get_ai_move` does not return the empty list. -/
def gOneEmpty : Game :=
  mkGame 2 [((0, 0), 'X'), ((0, 1), 'O'), ((1, 0), 'X')] 'O' false "minimax" "heuristic_1" none none

/-- The spec's 9×9 forced-block scenario: five opponent stones in an open
horizontal run at row 4, columns 3-7; the engine (O) is to move. -/
def gBlockScn : Game :=
  mkGame 9 [((4, 3), 'X'), ((4, 4), 'X'), ((4, 5), 'X'), ((4, 6), 'X'), ((4, 7), 'X')]
    'O' false "minimax" "heuristic_1" none none

/-- A 9×9 position where the opponent's five-run has exactly one open end
(columns 0-4 against the left edge), so only one one-move win cell exists. -/
def gOneBlocker : Game :=
  mkGame 9 [((4, 0), 'X'), ((4, 1), 'X'), ((4, 2), 'X'), ((4, 3), 'X'), ((4, 4), 'X')]
    'O' false "minimax" "heuristic_1" none none

/-- A 9×9 position where the mover (O) has an immediate win available (row 6)
while the opponent (X) also threatens an immediate win (row 2). -/
def gWinAndThreat : Game :=
  mkGame 9 [((2, 2), 'X'), ((2, 3), 'X'), ((2, 4), 'X'), ((2, 5), 'X'), ((2, 6), 'X'),
            ((6, 2), 'O'), ((6, 3), 'O'), ((6, 4), 'O'), ((6, 5), 'O'), ((6, 6), 'O')]
    'O' false "minimax" "heuristic_1" none none

/-- A small 3×3 alpha-beta state with recorded last-move coordinates. -/
def gSmallAB : Game :=
  mkGame 3 [((0, 0), 'X'), ((0, 1), 'O')] 'O' false "alpha_beta" "heuristic_1"
    (some 0) (some 1)

/-- A 6×6 board with a single AI stone at the center. -/
def gCenterStone : Game :=
  mkGame 6 [((3, 3), 'O')] 'O' false "minimax" "heuristic_1" none none

/-- The same board probed under the second heuristic. -/
def gCenterStoneH2 : Game :=
  mkGame 6 [((3, 3), 'O')] 'O' false "minimax" "heuristic_2" none none

/-- A 6×6 board with two adjacent AI stones (a position `heuristic_1` scores
differently for the two sides). -/
def gTwoStones : Game :=
  mkGame 6 [((3, 3), 'O'), ((3, 4), 'O')] 'O' false "minimax" "heuristic_1" none none

/-- A 6×6 board with every cell filled except `(5, 5)`, after the opening. -/
def gAlmostFull : Game :=
  { board := { size := 6, grid :=
      [['X', 'X', 'X', 'X', 'X', 'X'],
       ['O', 'O', 'O', 'O', 'O', 'O'],
       ['X', 'X', 'X', 'X', 'X', 'X'],
       ['O', 'O', 'O', 'O', 'O', 'O'],
       ['X', 'X', 'X', 'X', 'X', 'X'],
       ['O', 'O', 'O', 'O', 'O', '.']] },
    current_player := 'O', first_move := false,
    human_player := 'X', ai_player := 'O', ai_algorithm := "minimax",
    heuristic := "heuristic_1", last_row := none, last_col := none,
    available_moves := [(5, 5)], last_human_moves := none }

/-- A 6×6 board with a full row of six `'O'` stones (a finished win). -/
def gSixRow : Game :=
  mkGame 6 [((0, 0), 'O'), ((0, 1), 'O'), ((0, 2), 'O'), ((0, 3), 'O'), ((0, 4), 'O'),
            ((0, 5), 'O')] 'X' false "minimax" "heuristic_1" none none

end C6V

namespace C6V

/-- Replace only the last-move coordinates. -/
def Game.withLast (g : Game) (r c : Option Nat) : Game :=
  { g with last_row := r, last_col := c }

/-- Equality of game states up to the last-move coordinates: the board, the
available-move set, the active player, the opening flag, the configuration
fields and the last-human-moves attribute all agree. -/
def coreEq (a b : Game) : Prop :=
  a.withLast none none = b.withLast none none

/-! ## Theorems -/

set_option maxRecDepth 10000

/-- A full board has no empty cells. -/
theorem isFull_empty_count (b : Board) (h : b.isFull = true) :
    b.getEmptyCellsCount = 0 := by
  unfold Board.getEmptyCellsCount
  apply List.sum_eq_zero
  intro x hx
  simp only [List.mem_map] at hx
  obtain ⟨row, hrow, rfl⟩ := hx
  rw [List.countP_eq_zero]
  intro c hc
  unfold Board.isFull at h
  rw [List.all_eq_true] at h
  have hr := h row hrow
  rw [List.all_eq_true] at hr
  have hcc := hr c hc
  simp at hcc
  simp [hcc]

/-- Claim C10: `check_winner` is total at the boundary — for every game state
and every out-of-bounds coordinate it returns `False` (the bounds guard fires
before any grid access). -/
theorem claim10_theorem (g : Game) (x y : Int)
    (h : x < 0 ∨ y < 0 ∨ (g.board.size : Int) ≤ x ∨ (g.board.size : Int) ≤ y) :
    g.checkWinner x y = false := by
  have hnb : ¬ g.board.inBoundsI x y := by
    intro hb
    obtain ⟨h1, h2, h3, h4⟩ := hb
    rcases h with h | h | h | h <;> omega
  unfold Game.checkWinner
  simp [hnb]

/-- Witness for C10 at a concrete negative coordinate. -/
theorem claim10_witness :
    ((-1 : Int) < 0 ∨ (0 : Int) < 0 ∨ ((gSixRow.board.size : Int) ≤ -1) ∨
      ((gSixRow.board.size : Int) ≤ 0)) ∧
    gSixRow.checkWinner (-1) 0 = false :=
  ⟨Or.inl (by decide), claim10_theorem gSixRow (-1) 0 (Or.inl (by decide))⟩

/-- Claim C3: on an even-sized board with exactly one empty cell remaining and
the opening move already played, `is_draw` returns `true` although the board
is not full. -/
theorem claim3_theorem (g : Game) (he : g.board.size % 2 = 0)
    (h1 : g.board.getEmptyCellsCount = 1) (hf : g.first_move = false) :
    g.isDraw = true ∧ g.board.isFull = false := by
  have hnotfull : g.board.isFull = false := by
    cases hfull : g.board.isFull
    · rfl
    · have := isFull_empty_count g.board hfull
      rw [h1] at this
      exact absurd this (by decide)
  refine ⟨?_, hnotfull⟩
  unfold Game.isDraw
  simp [hnotfull, he, h1, hf]

/-- Witness for C3: the concrete 6×6 board with one empty cell. -/
theorem claim3_witness :
    (gAlmostFull.board.size % 2 = 0 ∧ gAlmostFull.board.getEmptyCellsCount = 1 ∧
      gAlmostFull.first_move = false) ∧
    gAlmostFull.isDraw = true ∧ gAlmostFull.board.isFull = false :=
  ⟨⟨by decide, by decide, by decide⟩,
    claim3_theorem gAlmostFull (by decide) (by decide) (by decide)⟩

end C6V

namespace C6V

/-! ### Board cell lemmas -/

@[simp] theorem Board.size_setCell (b : Board) (x y : Nat) (v : Char) :
    (b.setCell x y v).size = b.size := rfl

theorem Board.cell_setCell_ne (b : Board) (x y x' y' : Nat) (v : Char)
    (h : x ≠ x' ∨ y ≠ y') : (b.setCell x y v).cell x' y' = b.cell x' y' := by
  unfold Board.setCell Board.cell
  rcases h with h | h
  · simp [List.getD_eq_getElem?_getD, List.getElem?_set_ne h]
  · by_cases hx : x = x'
    · subst hx
      by_cases hlen : x < b.grid.length
      · simp [List.getD_eq_getElem?_getD, List.getElem?_set_eq_of_lt _ hlen,
          List.getElem?_set_ne h]
      · rw [List.set_eq_of_length_le (Nat.le_of_not_lt hlen)]
    · simp [List.getD_eq_getElem?_getD, List.getElem?_set_ne hx]

theorem Board.cell_setCell_self (b : Board) (x y : Nat) (v : Char)
    (hx : x < b.grid.length) (hy : y < (b.grid.getD x []).length) :
    (b.setCell x y v).cell x y = v := by
  unfold Board.setCell Board.cell
  rw [List.getD_eq_getElem?_getD] at hy
  simp only [List.getD_eq_getElem?_getD, List.getElem?_set_eq_of_lt _ hx, Option.getD_some]
  rw [List.getElem?_set_eq_of_lt _ hy, Option.getD_some]

theorem Board.square_setCell (b : Board) (x y : Nat) (v : Char) (h : b.Square) :
    (b.setCell x y v).Square := by
  obtain ⟨h1, h2⟩ := h
  by_cases hlen : x < b.grid.length
  · refine ⟨by simpa [Board.setCell] using h1, ?_⟩
    intro row hrow
    simp only [Board.setCell] at hrow
    rcases List.mem_or_eq_of_mem_set hrow with hmem | heq
    · exact h2 row hmem
    · subst heq
      rw [List.length_set]
      have : b.grid.getD x [] ∈ b.grid := by
        rw [List.getD_eq_getElem?_getD, List.getElem?_eq_getElem hlen]
        exact List.getElem_mem hlen
      exact h2 _ this
  · unfold Board.setCell
    rw [List.set_eq_of_length_le (Nat.le_of_not_lt hlen)]
    exact ⟨h1, h2⟩

theorem Board.cellI_eq_cell (b : Board) (x y : Int) (hx : 0 ≤ x) (hy : 0 ≤ y) :
    b.cellI x y = b.cell x.toNat y.toNat := by
  simp [Board.cellI, hx, hy]

theorem Board.row_length_of_square (b : Board) (hsq : b.Square) (x : Nat)
    (hx : x < b.size) : (b.grid.getD x []).length = b.size := by
  obtain ⟨h1, h2⟩ := hsq
  have hxl : x < b.grid.length := by rw [h1]; exact hx
  have : b.grid.getD x [] ∈ b.grid := by
    rw [List.getD_eq_getElem?_getD, List.getElem?_eq_getElem hxl]
    exact List.getElem_mem hxl
  exact h2 _ this

theorem Board.isValidMove_of (b : Board) (x y : Int)
    (hin : b.inBoundsI x y) (hc : b.cellI x y = '.') : b.isValidMove x y = true := by
  simp [Board.isValidMove, hin, hc]

theorem Board.placeMove_success (b : Board) (x y : Int) (p : Char)
    (h : b.isValidMove x y = true) :
    (b.placeMove x y p).1 = b.setCell x.toNat y.toNat p := by
  simp [Board.placeMove, h]

/-- The integer-level write/read lemma used by the turn-application proof. -/
theorem Board.cellI_setCell_ne (b : Board) (x y : Nat) (p q : Int) (v : Char)
    (h : (p, q) ≠ ((x : Int), (y : Int))) :
    (b.setCell x y v).cellI p q = b.cellI p q := by
  by_cases hp : 0 ≤ p ∧ 0 ≤ q
  · rw [Board.cellI_eq_cell _ _ _ hp.1 hp.2, Board.cellI_eq_cell _ _ _ hp.1 hp.2]
    apply Board.cell_setCell_ne
    by_cases hx : x = p.toNat
    · right
      intro hyy
      apply h
      subst hx
      subst hyy
      rw [Int.toNat_of_nonneg hp.1, Int.toNat_of_nonneg hp.2]
    · left; exact hx
  · unfold Board.cellI
    rw [if_neg hp, if_neg hp]

end C6V

namespace C6V

/-! ### Turn validation and atomic application (claim C2) -/

theorem msgOfParts_cons_ne_nil (s : String) (rest : List String)
    (hs : s.toList ≠ []) : msgOfParts (s :: rest) ≠ [] := by
  unfold msgOfParts
  simp only [List.map_cons, List.flatten_cons]
  intro h
  rcases List.append_eq_nil.mp h with ⟨h1, _⟩
  exact hs h1

@[simp] theorem Game.removeMoveI_board (g : Game) (x y : Int) :
    (g.removeMoveI x y).board = g.board := by
  unfold Game.removeMoveI Game.removeMove; split <;> rfl

@[simp] theorem Game.removeMoveI_current (g : Game) (x y : Int) :
    (g.removeMoveI x y).current_player = g.current_player := by
  unfold Game.removeMoveI Game.removeMove; split <;> rfl

@[simp] theorem Game.removeMoveI_first (g : Game) (x y : Int) :
    (g.removeMoveI x y).first_move = g.first_move := by
  unfold Game.removeMoveI Game.removeMove; split <;> rfl

@[simp] theorem Game.removeMoveI_human (g : Game) (x y : Int) :
    (g.removeMoveI x y).human_player = g.human_player := by
  unfold Game.removeMoveI Game.removeMove; split <;> rfl

theorem Board.inBoundsI_congr (b b' : Board) (x y : Int) (h : b.size = b'.size) :
    b.inBoundsI x y ↔ b'.inBoundsI x y := by
  unfold Board.inBoundsI; rw [h]

theorem validateLoop_false_reason (g : Game) :
    ∀ (rest : List ICoord) (seen : List ICoord),
      (validateLoop g rest seen).1 = false → (validateLoop g rest seen).2 ≠ [] := by
  intro rest
  induction rest with
  | nil => intro seen h; simp [validateLoop] at h
  | cons m rest ih =>
    intro seen h
    obtain ⟨x, y⟩ := m
    simp only [validateLoop] at h ⊢
    by_cases h1 : ¬ g.board.inBoundsI x y
    · rw [if_pos h1] at h ⊢
      exact msgOfParts_cons_ne_nil _ _ (by decide)
    · rw [if_neg h1] at h ⊢
      by_cases h2 : g.board.cellI x y ≠ '.'
      · rw [if_pos h2] at h ⊢
        exact msgOfParts_cons_ne_nil _ _ (by decide)
      · rw [if_neg h2] at h ⊢
        by_cases h3 : (x, y) ∈ seen
        · rw [if_pos h3] at h ⊢
          exact msgOfParts_cons_ne_nil _ _ (by decide)
        · rw [if_neg h3] at h ⊢
          exact ih _ h

theorem validate_false_reason (g : Game) (moves : List ICoord)
    (h : (g.validateMovesAtomic moves).1 = false) :
    (g.validateMovesAtomic moves).2 ≠ [] := by
  unfold Game.validateMovesAtomic at h ⊢
  by_cases hlen : moves.length ≠ (if g.first_move then 1 else 2)
  · rw [if_pos hlen]
    exact msgOfParts_cons_ne_nil _ _ (by decide)
  · rw [if_neg hlen] at h ⊢
    exact validateLoop_false_reason g moves [] h

theorem validateLoop_sound (g : Game) :
    ∀ (rest : List ICoord) (seen : List ICoord),
      (validateLoop g rest seen).1 = true →
      rest.Nodup ∧
      ∀ m ∈ rest, g.board.inBoundsI m.1 m.2 ∧ g.board.cellI m.1 m.2 = '.' ∧ m ∉ seen := by
  intro rest
  induction rest with
  | nil => intro seen _; exact ⟨List.nodup_nil, by intro m hm; cases hm⟩
  | cons m rest ih =>
    intro seen h
    obtain ⟨x, y⟩ := m
    simp only [validateLoop] at h
    by_cases h1 : ¬ g.board.inBoundsI x y
    · rw [if_pos h1] at h; cases h
    · rw [if_neg h1] at h
      by_cases h2 : g.board.cellI x y ≠ '.'
      · rw [if_pos h2] at h; cases h
      · rw [if_neg h2] at h
        by_cases h3 : (x, y) ∈ seen
        · rw [if_pos h3] at h; cases h
        · rw [if_neg h3] at h
          obtain ⟨hnd, hrest⟩ := ih _ h
          push_neg at h1 h2
          constructor
          · refine List.Nodup.cons ?_ hnd
            intro hmem
            exact ((hrest _ hmem).2.2) (by simp)
          · intro m hm
            rcases List.mem_cons.mp hm with rfl | hm'
            · exact ⟨h1, h2, h3⟩
            · obtain ⟨ha, hb, hc⟩ := hrest m hm'
              refine ⟨ha, hb, ?_⟩
              intro hcon
              exact hc (by simp [hcon])

theorem validate_sound (g : Game) (moves : List ICoord)
    (h : (g.validateMovesAtomic moves).1 = true) :
    moves.length = (if g.first_move then 1 else 2) ∧ moves.Nodup ∧
    ∀ m ∈ moves, g.board.inBoundsI m.1 m.2 ∧ g.board.cellI m.1 m.2 = '.' := by
  unfold Game.validateMovesAtomic at h
  by_cases hlen : moves.length ≠ (if g.first_move then 1 else 2)
  · rw [if_pos hlen] at h; cases h
  · rw [if_neg hlen] at h
    push_neg at hlen
    obtain ⟨hnd, hall⟩ := validateLoop_sound g moves [] h
    exact ⟨hlen, hnd, fun m hm => ⟨(hall m hm).1, (hall m hm).2.1⟩⟩

end C6V


namespace C6V

theorem playPlaceLoop_spec (moves : List ICoord) :
    ∀ (g : Game) (last0 : Option ICoord),
      g.board.Square →
      moves.Nodup →
      (∀ m ∈ moves, g.board.inBoundsI m.1 m.2 ∧ g.board.cellI m.1 m.2 = '.') →
      (((playPlaceLoop g moves last0).2.1 = false →
        ∀ m ∈ moves, (playPlaceLoop g moves last0).1.board.cellI m.1 m.2 = g.current_player) ∧
      (playPlaceLoop g moves last0).1.current_player = g.current_player ∧
      (playPlaceLoop g moves last0).1.first_move = g.first_move ∧
      (playPlaceLoop g moves last0).1.human_player = g.human_player ∧
      (playPlaceLoop g moves last0).1.board.size = g.board.size ∧
      (playPlaceLoop g moves last0).1.board.Square ∧
      (∀ p q : Int, (∀ m ∈ moves, (p, q) ≠ m) →
        (playPlaceLoop g moves last0).1.board.cellI p q = g.board.cellI p q)) := by
  induction moves with
  | nil =>
    intro g last0 hsq _ _
    refine ⟨?_, ?_, ?_, ?_, ?_, ?_, ?_⟩ <;> simp [playPlaceLoop, hsq]
  | cons m rest ih =>
    intro g last0 hsq hnd hall
    obtain ⟨x, y⟩ := m
    have hin := (hall (x, y) (by simp)).1
    have hc := (hall (x, y) (by simp)).2
    have hvalid := Board.isValidMove_of g.board x y hin hc
    have hb1 : (g.board.placeMove x y g.current_player).1 =
        g.board.setCell x.toNat y.toNat g.current_player :=
      Board.placeMove_success _ _ _ _ hvalid
    obtain ⟨hx0, hxs, hy0, hys⟩ := hin
    have hxsn : x.toNat < g.board.size := by omega
    have hysn : y.toNat < g.board.size := by omega
    have hxcoe : ((x.toNat : Int), (y.toNat : Int)) = (x, y) := by
      rw [Int.toNat_of_nonneg hx0, Int.toNat_of_nonneg hy0]
    have hxlen : x.toNat < g.board.grid.length := by rw [hsq.1]; exact hxsn
    have hylen : y.toNat < (g.board.grid.getD x.toNat []).length := by
      rw [Board.row_length_of_square g.board hsq x.toNat hxsn]; exact hysn
    have hbset := Board.cell_setCell_self g.board x.toNat y.toNat g.current_player hxlen hylen
    have hsq1 := Board.square_setCell g.board x.toNat y.toNat g.current_player hsq
    simp only [playPlaceLoop, hb1]
    set G2 : Game := Game.removeMoveI
      { g with board := g.board.setCell x.toNat y.toNat g.current_player } x y with hG2
    have hG2board : G2.board = g.board.setCell x.toNat y.toNat g.current_player := by
      rw [hG2]; simp
    have hG2cur : G2.current_player = g.current_player := by rw [hG2]; simp
    have hG2first : G2.first_move = g.first_move := by rw [hG2]; simp
    have hG2human : G2.human_player = g.human_player := by rw [hG2]; simp
    have hG2size : G2.board.size = g.board.size := by rw [hG2board]; rfl
    have hG2sq : G2.board.Square := by rw [hG2board]; exact hsq1
    have hG2self : G2.board.cellI x y = g.current_player := by
      rw [hG2board, Board.cellI_eq_cell _ _ _ hx0 hy0]
      exact hbset
    have hG2other : ∀ p q : Int, (p, q) ≠ (x, y) →
        G2.board.cellI p q = g.board.cellI p q := by
      intro p q hne
      rw [hG2board]
      apply Board.cellI_setCell_ne
      rw [hxcoe]
      exact hne
    have hheadnot : (x, y) ∉ rest := (List.nodup_cons.mp hnd).1
    by_cases hwin : G2.checkWinner x y
    · rw [if_pos hwin]
      refine ⟨fun hf => absurd hf (by simp), hG2cur, hG2first, hG2human, hG2size, hG2sq, ?_⟩
      intro p q hp
      exact hG2other p q (hp (x, y) (by simp))
    · rw [if_neg hwin]
      have hrestprops : ∀ m ∈ rest, G2.board.inBoundsI m.1 m.2 ∧ G2.board.cellI m.1 m.2 = '.' := by
        intro m hm
        have hmne : ((m.1 : Int), (m.2 : Int)) ≠ (x, y) := by
          intro hcon
          apply hheadnot
          have hmxy : m = (x, y) := by
            obtain ⟨a, b⟩ := m
            exact hcon
          rw [← hmxy]; exact hm
        constructor
        · rw [← Board.inBoundsI_congr g.board G2.board m.1 m.2 hG2size.symm]
          exact (hall m (by simp [hm])).1
        · rw [hG2other m.1 m.2 hmne]
          exact (hall m (by simp [hm])).2
      obtain ⟨ihcell, ihcur, ihfirst, ihhuman, ihsize, ihsq, ihother⟩ :=
        ih G2 (some (x, y)) hG2sq (List.nodup_cons.mp hnd).2 hrestprops
      refine ⟨?_, by rw [ihcur, hG2cur], by rw [ihfirst, hG2first],
        by rw [ihhuman, hG2human], by rw [ihsize, hG2size], ihsq, ?_⟩
      · intro hf m hm
        rcases List.mem_cons.mp hm with rfl | hm'
        · have hne : ∀ m' ∈ rest, ((x, y) : ICoord) ≠ m' := by
            intro m' hm' hcon
            rw [hcon] at hheadnot
            exact hheadnot hm'
          show (playPlaceLoop G2 rest (some (x, y))).1.board.cellI x y = g.current_player
          rw [ihother x y hne, hG2self]
        · rw [ihcell hf m hm', hG2cur]
      · intro p q hp
        rw [ihother p q (fun m' hm' => hp m' (by simp [hm']))]
        exact hG2other p q (hp (x, y) (by simp))

end C6V

namespace C6V

theorem playTurnFinish_spec (g1 : Game) (moves : List ICoord) (last : Option ICoord) :
    (playTurnFinish g1 moves last).1.board = g1.board ∧
    (playTurnFinish g1 moves last).1.current_player = Game.otherOf g1.current_player ∧
    (playTurnFinish g1 moves last).2 = false := by
  unfold playTurnFinish Game.switchPlayer Game.otherOf
  rcases last with _ | ⟨x, y⟩ <;> by_cases hf : g1.first_move <;>
    simp [hf] <;> split <;> simp

/-- Claim C2: `play_turn` is atomic.  An invalid turn yields a non-empty
failure reason from `validateMovesAtomic`, and the state is returned entirely
unchanged (board grid, available-move set, opening flag, active player).  A
valid turn that does not end the game places every stone of the list for the
active player and then switches the active player. -/
theorem claim2_theorem (g : Game) (moves : List ICoord) :
    ((g.validateMovesAtomic moves).1 = false →
      (g.validateMovesAtomic moves).2 ≠ [] ∧ g.playTurn moves = (g, false)) ∧
    ((g.validateMovesAtomic moves).1 = true → g.board.Square →
      (g.playTurn moves).2 = false →
      (∀ m ∈ moves, (g.playTurn moves).1.board.cellI m.1 m.2 = g.current_player) ∧
      (g.playTurn moves).1.current_player = Game.otherOf g.current_player) := by
  constructor
  · intro hv
    refine ⟨validate_false_reason g moves hv, ?_⟩
    unfold Game.playTurn
    rcases hvm : g.validateMovesAtomic moves with ⟨v, r⟩
    rw [hvm] at hv
    simp only at hv
    subst hv
    simp
  · intro hv hsq hend
    obtain ⟨_, hnd, hprops⟩ := validate_sound g moves hv
    unfold Game.playTurn at hend ⊢
    rcases hvm : g.validateMovesAtomic moves with ⟨v, r⟩
    rw [hvm] at hv hend
    simp only at hv
    subst hv
    simp only [Bool.not_true, if_false, ite_false] at hend ⊢
    rcases hpl : playPlaceLoop g moves none with ⟨g1, won, last'⟩
    rw [hpl] at hend
    obtain ⟨hcells, hcur, _, _, _, _, _⟩ := playPlaceLoop_spec moves g none hsq hnd hprops
    rw [hpl] at hcells hcur
    simp only at hcells hcur
    cases won with
    | true => simp at hend
    | false =>
      simp only [if_false, ite_false] at hend ⊢
      by_cases hdraw : g1.isDraw
      · rw [if_pos hdraw] at hend; simp at hend
      · rw [if_neg hdraw] at hend ⊢
        obtain ⟨hb, hc, _⟩ := playTurnFinish_spec g1 moves last'
        simp only [not_true, Bool.false_eq_true, if_false, ite_false] at hend ⊢
        constructor
        · intro m hm
          rw [hb]
          exact hcells rfl m hm
        · rw [hc, hcur]

/-- Witness for C2 at a concretely invalid turn (wrong move count). -/
theorem claim2_witness :
    (gBlockScn.validateMovesAtomic [((0 : Int), (0 : Int))]).1 = false ∧
    (gBlockScn.validateMovesAtomic [((0 : Int), (0 : Int))]).2 ≠ [] ∧
    gBlockScn.playTurn [((0 : Int), (0 : Int))] = (gBlockScn, false) :=
  ⟨by decide, (claim2_theorem gBlockScn [((0 : Int), (0 : Int))]).1 (by decide)⟩

end C6V

namespace C6V

/-! ### Win detection equivalence (claim C4) -/

/-- A cell usable by the counting walk: in bounds and colored `p`. -/
def rayOk (b : Board) (p : Char) (u v : Int) : Prop :=
  b.inBoundsI u v ∧ b.cellI u v = p

theorem countRay_sound (b : Board) (p : Char) (di dj : Int) :
    ∀ (fuel : Nat) (i j : Int) (t : Nat), t < countRay b p i j di dj fuel →
      rayOk b p (i + t * di) (j + t * dj) := by
  intro fuel
  induction fuel with
  | zero => intro i j t ht; simp [countRay] at ht
  | succ fuel ih =>
    intro i j t ht
    rw [countRay] at ht
    by_cases hok : b.inBoundsI i j ∧ b.cellI i j = p
    · rw [if_pos hok] at ht
      cases t with
      | zero => simpa using hok
      | succ s =>
        have hs : s < countRay b p (i + di) (j + dj) di dj fuel := by omega
        have h2 := ih (i + di) (j + dj) s hs
        have he1 : (i + di) + (s : Int) * di = i + ((s : Nat) + 1 : Nat) * di := by
          push_cast; ring
        have he2 : (j + dj) + (s : Int) * dj = j + ((s : Nat) + 1 : Nat) * dj := by
          push_cast; ring
        rw [he1, he2] at h2
        exact h2
    · rw [if_neg hok] at ht
      omega

theorem countRay_complete (b : Board) (p : Char) (di dj : Int) :
    ∀ (fuel : Nat) (i j : Int) (n : Nat),
      (∀ t : Nat, t < n → rayOk b p (i + t * di) (j + t * dj)) →
      n ≤ fuel → n ≤ countRay b p i j di dj fuel := by
  intro fuel
  induction fuel with
  | zero => intro i j n _ hn; omega
  | succ fuel ih =>
    intro i j n hgood hn
    cases n with
    | zero => omega
    | succ m =>
      have h0 := hgood 0 (by omega)
      simp only [Nat.cast_zero, zero_mul, add_zero] at h0
      have h0' : b.inBoundsI i j ∧ b.cellI i j = p := h0
      rw [countRay, if_pos h0']
      have hrest : ∀ t : Nat, t < m → rayOk b p ((i + di) + t * di) ((j + dj) + t * dj) := by
        intro t ht
        have h2 := hgood (t + 1) (by omega)
        have he1 : i + ((t : Nat) + 1 : Nat) * di = (i + di) + (t : Int) * di := by
          push_cast; ring
        have he2 : j + ((t : Nat) + 1 : Nat) * dj = (j + dj) + (t : Int) * dj := by
          push_cast; ring
        rw [he1, he2] at h2
        exact h2
      have := ih (i + di) (j + dj) m hrest (by omega)
      omega

theorem steps_bounded (b : Board) (x y dx dy : Int) (k : Nat)
    (hx : b.inBoundsI x y) (hk : b.inBoundsI (x + k * dx) (y + k * dy))
    (hd : (dx = 1 ∨ dx = -1) ∨ (dx = 0 ∧ (dy = 1 ∨ dy = -1))) : k ≤ b.size := by
  obtain ⟨hx1, hx2, hx3, hx4⟩ := hx
  obtain ⟨hk1, hk2, hk3, hk4⟩ := hk
  rcases hd with h | ⟨h0, h⟩
  · rcases h with rfl | rfl
    · simp only [mul_one] at hk1 hk2; omega
    · simp only [mul_neg_one] at hk1 hk2; omega
  · rcases h with rfl | rfl
    · subst h0; simp only [mul_one] at hk3 hk4; omega
    · subst h0; simp only [mul_neg_one] at hk3 hk4; omega

/-- Per-direction equivalence between the spec's interval formulation and the
two counting walks of `check_winner`. -/
theorem run_iff_counts (b : Board) (x y : Int) (p : Char) (dx dy : Int)
    (hin : b.inBoundsI x y) (hp : b.cellI x y = p)
    (hd : (dx = 1 ∨ dx = -1) ∨ (dx = 0 ∧ (dy = 1 ∨ dy = -1)))
    (hdneg : (-dx = 1 ∨ -dx = -1) ∨ (-dx = 0 ∧ (-dy = 1 ∨ -dy = -1))) :
    (∃ k1 k2 : Nat, 6 ≤ k1 + k2 + 1 ∧ ∀ t : Int, -(k2 : Int) ≤ t → t ≤ (k1 : Int) →
        b.inBoundsI (x + t * dx) (y + t * dy) ∧ b.cellI (x + t * dx) (y + t * dy) = p) ↔
    6 ≤ 1 + countRay b p (x + dx) (y + dy) dx dy b.size
        + countRay b p (x - dx) (y - dy) (-dx) (-dy) b.size := by
  constructor
  · rintro ⟨k1, k2, htot, hgood⟩
    have hk1in := (hgood (k1 : Int) (by omega) (by omega)).1
    have hk2in := (hgood (-(k2 : Int)) (by omega) (by omega)).1
    have hk1size : k1 ≤ b.size := steps_bounded b x y dx dy k1 hin hk1in hd
    have hk2size : k2 ≤ b.size := by
      apply steps_bounded b x y (-dx) (-dy) k2 hin ?_ hdneg
      have he1 : x + (k2 : Int) * -dx = x + -(k2 : Int) * dx := by ring
      have he2 : y + (k2 : Int) * -dy = y + -(k2 : Int) * dy := by ring
      rw [he1, he2]
      exact hk2in
    have hF : k1 ≤ countRay b p (x + dx) (y + dy) dx dy b.size := by
      apply countRay_complete b p dx dy b.size (x + dx) (y + dy) k1 ?_ hk1size
      intro t ht
      have h2 := hgood ((t : Int) + 1) (by omega) (by omega)
      have he1 : x + ((t : Int) + 1) * dx = (x + dx) + (t : Int) * dx := by ring
      have he2 : y + ((t : Int) + 1) * dy = (y + dy) + (t : Int) * dy := by ring
      rw [he1, he2] at h2
      exact h2
    have hB : k2 ≤ countRay b p (x - dx) (y - dy) (-dx) (-dy) b.size := by
      apply countRay_complete b p (-dx) (-dy) b.size (x - dx) (y - dy) k2 ?_ hk2size
      intro t ht
      have h2 := hgood (-((t : Int) + 1)) (by omega) (by omega)
      have he1 : x + -((t : Int) + 1) * dx = (x - dx) + (t : Int) * -dx := by ring
      have he2 : y + -((t : Int) + 1) * dy = (y - dy) + (t : Int) * -dy := by ring
      rw [he1, he2] at h2
      exact h2
    omega
  · intro hcount
    refine ⟨countRay b p (x + dx) (y + dy) dx dy b.size,
      countRay b p (x - dx) (y - dy) (-dx) (-dy) b.size, by omega, ?_⟩
    intro t hlo hhi
    rcases lt_trichotomy t 0 with hneg | rfl | hpos
    · have hs : t = -(((-t).toNat - 1 : Nat) + 1 : Nat) := by omega
      set s : Nat := (-t).toNat - 1 with hsdef
      have hslt : s < countRay b p (x - dx) (y - dy) (-dx) (-dy) b.size := by omega
      have h2 := countRay_sound b p (-dx) (-dy) b.size (x - dx) (y - dy) s hslt
      have he1 : (x - dx) + (s : Int) * -dx = x + t * dx := by rw [hs]; push_cast; ring
      have he2 : (y - dy) + (s : Int) * -dy = y + t * dy := by rw [hs]; push_cast; ring
      rw [he1, he2] at h2
      exact h2
    · simpa using ⟨hin, hp⟩
    · have hs : t = (((t.toNat - 1 : Nat)) + 1 : Nat) := by omega
      set s : Nat := t.toNat - 1 with hsdef
      have hslt : s < countRay b p (x + dx) (y + dy) dx dy b.size := by omega
      have h2 := countRay_sound b p dx dy b.size (x + dx) (y + dy) s hslt
      have he1 : (x + dx) + (s : Int) * dx = x + t * dx := by rw [hs]; push_cast; ring
      have he2 : (y + dy) + (s : Int) * dy = y + t * dy := by rw [hs]; push_cast; ring
      rw [he1, he2] at h2
      exact h2

end C6V

namespace C6V

theorem dir_facts (d : Int × Int) (hd : d ∈ directions) :
    ((d.1 = 1 ∨ d.1 = -1) ∨ (d.1 = 0 ∧ (d.2 = 1 ∨ d.2 = -1))) ∧
    ((-d.1 = 1 ∨ -d.1 = -1) ∨ (-d.1 = 0 ∧ (-d.2 = 1 ∨ -d.2 = -1))) := by
  simp only [directions, List.mem_cons, List.not_mem_nil, or_false] at hd
  rcases hd with rfl | rfl | rfl | rfl <;> exact ⟨by decide, by decide⟩

/-- Claim C4: for every in-bounds coordinate on a square grid, `check_winner`
returns `true` iff the actual occupant of `(x, y)` is a stone lying on a
contiguous same-color run of length at least 6 along one of the four axes; it
returns `false` on an empty cell, and its value does not depend on the
`current_player` field. -/
theorem claim4_theorem (g : Game) (x y : Int) (_hsq : g.board.Square)
    (hin : g.board.inBoundsI x y) :
    (g.checkWinner x y = true ↔ (g.board.cellI x y ≠ '.' ∧ HasRun6 g.board x y)) ∧
    (∀ c : Char, Game.checkWinner { g with current_player := c } x y = g.checkWinner x y) := by
  refine ⟨?_, fun c => rfl⟩
  unfold Game.checkWinner
  rw [if_neg (not_not_intro hin)]
  simp only []
  by_cases hdot : g.board.cellI x y = '.'
  · rw [if_pos hdot]
    simp [hdot]
  · rw [if_neg hdot]
    rw [List.any_eq_true]
    constructor
    · rintro ⟨d, hd, hcount⟩
      refine ⟨hdot, d, hd, ?_⟩
      have hc : 6 ≤ 1 + countRay g.board (g.board.cellI x y) (x + d.1) (y + d.2) d.1 d.2
          g.board.size
          + countRay g.board (g.board.cellI x y) (x - d.1) (y - d.2) (-d.1) (-d.2)
          g.board.size := by
        simpa using hcount
      exact (run_iff_counts g.board x y (g.board.cellI x y) d.1 d.2 hin rfl
        (dir_facts d hd).1 (dir_facts d hd).2).mpr hc
    · rintro ⟨_, d, hd, hrun⟩
      refine ⟨d, hd, ?_⟩
      have hc := (run_iff_counts g.board x y (g.board.cellI x y) d.1 d.2 hin rfl
        (dir_facts d hd).1 (dir_facts d hd).2).mp hrun
      simpa using hc

/-- Witness for C4 on the concrete 9×9 block scenario at the stone `(4, 3)`. -/
theorem claim4_witness :
    gBlockScn.board.Square ∧ gBlockScn.board.inBoundsI 4 3 ∧
    ((gBlockScn.checkWinner 4 3 = true ↔
      (gBlockScn.board.cellI 4 3 ≠ '.' ∧ HasRun6 gBlockScn.board 4 3)) ∧
    (∀ c : Char, Game.checkWinner { gBlockScn with current_player := c } 4 3 =
      gBlockScn.checkWinner 4 3)) :=
  ⟨by decide, by decide, claim4_theorem gBlockScn 4 3 (by decide) (by decide)⟩

end C6V

namespace C6V

/-! ### Evaluator side-consistency (claim C8) -/

theorem sum_map_neg {α M : Type} [AddCommGroup M] (l : List α) (f : α → M) :
    (l.map (fun a => - f a)).sum = - (l.map f).sum := by
  induction l with
  | nil => simp
  | cons a l ih => simp [ih, neg_add]; exact add_comm _ _

theorem cellScore1_swap (g : Game) (hok : StonesOk g) (i j : Nat)
    (hi : i < g.board.size) (hj : j < g.board.size) :
    cellScore1 (swapSides g) i j = - cellScore1 g i j := by
  by_cases hdot : g.board.cell i j = '.'
  · simp [cellScore1, swapSides, hdot]
  · rcases hok.2 i hi j hj with h | hai | hhu
    · exact absurd h hdot
    · have hne : ¬ g.board.cell i j = g.human_player := by
        rw [hai]; exact hok.1
      simp only [cellScore1, swapSides]
      rw [if_neg hdot, if_neg hdot, ← sum_map_neg]
      apply congrArg List.sum
      apply List.map_congr_left
      intro d _
      by_cases hcond : 2 ≤ dirCount g.board (g.board.cell i j) i j d ∧
          dirCount g.board (g.board.cell i j) i j d ≤ 5
      · rw [if_pos hcond, if_pos hcond, if_neg hne, if_pos hai]
      · rw [if_neg hcond, if_neg hcond, neg_zero]
    · have hne : ¬ g.board.cell i j = g.ai_player := by
        rw [hhu]; exact fun hc => hok.1 hc.symm
      simp only [cellScore1, swapSides]
      rw [if_neg hdot, if_neg hdot, ← sum_map_neg]
      apply congrArg List.sum
      apply List.map_congr_left
      intro d _
      by_cases hcond : 2 ≤ dirCount g.board (g.board.cell i j) i j d ∧
          dirCount g.board (g.board.cell i j) i j d ≤ 5
      · rw [if_pos hcond, if_pos hcond, if_pos hhu, if_neg hne, neg_neg]
      · rw [if_neg hcond, if_neg hcond, neg_zero]

theorem cellScore2_swap (g : Game) (hok : StonesOk g) (i j : Nat)
    (hi : i < g.board.size) (hj : j < g.board.size) :
    cellScore2 (swapSides g) i j = - cellScore2 g i j := by
  by_cases hdot : g.board.cell i j = '.'
  · simp [cellScore2, swapSides, hdot]
  · have hswap : ∀ q : ℚ, (if g.board.cell i j = g.human_player then q else - q) =
        - (if g.board.cell i j = g.ai_player then q else - q) := by
      intro q
      rcases hok.2 i hi j hj with h | hai | hhu
      · exact absurd h hdot
      · have hne : ¬ g.board.cell i j = g.human_player := by
          rw [hai]; exact hok.1
        rw [if_neg hne, if_pos hai]
      · have hne : ¬ g.board.cell i j = g.ai_player := by
          rw [hhu]; exact fun hc => hok.1 hc.symm
        rw [if_pos hhu, if_neg hne, neg_neg]
    simp only [cellScore2, swapSides]
    rw [if_neg hdot, if_neg hdot]
    rw [neg_add, ← sum_map_neg]
    apply congrArg₂ (· + ·)
    · exact hswap _
    · apply congrArg List.sum
      apply List.map_congr_left
      intro d _
      rw [neg_add]
      apply congrArg₂ (· + ·)
      · by_cases hcond : 2 ≤ dirCount g.board (g.board.cell i j) i j d ∧
            dirCount g.board (g.board.cell i j) i j d ≤ 5
        · rw [if_pos hcond, if_pos hcond]
          exact hswap _
        · rw [if_neg hcond, if_neg hcond, neg_zero]
      · by_cases hc5 : dirCount g.board (g.board.cell i j) i j d = 5
        · rw [if_pos hc5, if_pos hc5]
          split
          · exact hswap _
          · rw [neg_zero]
        · rw [if_neg hc5, if_neg hc5, neg_zero]

/-- Claim C8: both heuristics are deterministic, and exchanging which color is
the maximizing side exactly negates both scores (on states whose stones are
the two configured colors). -/
theorem claim8_theorem (g : Game) (hok : StonesOk g) :
    (heuristic1 g = heuristic1 g ∧ heuristic2 g = heuristic2 g) ∧
    heuristic1 (swapSides g) = - heuristic1 g ∧
    heuristic2 (swapSides g) = - heuristic2 g := by
  refine ⟨⟨rfl, rfl⟩, ?_, ?_⟩
  · unfold heuristic1
    simp only [swapSides]
    rw [← sum_map_neg]
    apply congrArg List.sum
    apply List.map_congr_left
    intro i hi
    rw [← sum_map_neg]
    apply congrArg List.sum
    apply List.map_congr_left
    intro j hj
    have h := cellScore1_swap g hok i j (List.mem_range.mp hi) (List.mem_range.mp hj)
    simpa [swapSides] using h
  · unfold heuristic2
    simp only [swapSides]
    rw [← sum_map_neg]
    apply congrArg List.sum
    apply List.map_congr_left
    intro i hi
    rw [← sum_map_neg]
    apply congrArg List.sum
    apply List.map_congr_left
    intro j hj
    have h := cellScore2_swap g hok i j (List.mem_range.mp hi) (List.mem_range.mp hj)
    simpa [swapSides] using h

/-- Witness for C8 on a concrete one-stone board. -/
theorem claim8_witness :
    StonesOk gCenterStone ∧
    ((heuristic1 gCenterStone = heuristic1 gCenterStone ∧
      heuristic2 gCenterStone = heuristic2 gCenterStone) ∧
    heuristic1 (swapSides gCenterStone) = - heuristic1 gCenterStone ∧
    heuristic2 (swapSides gCenterStone) = - heuristic2 gCenterStone) :=
  ⟨by decide, claim8_theorem gCenterStone (by decide)⟩

end C6V

namespace C6V

/-! ### Probe-cache transparency (claim C9) -/

theorem joinRows_inj (n : Nat) :
    ∀ (r1 r2 : List (List Char)),
      r1.length = r2.length →
      (∀ row ∈ r1, row.length = n) →
      (∀ row ∈ r2, row.length = n) →
      joinRows r1 = joinRows r2 → r1 = r2 := by
  intro r1
  induction r1 with
  | nil =>
    intro r2 hlen _ _ _
    symm
    exact List.length_eq_zero.mp hlen.symm
  | cons a as ih =>
    intro r2 hlen hr1 hr2 hj
    cases r2 with
    | nil => simp at hlen
    | cons b bs =>
      cases as with
      | nil =>
        cases bs with
        | nil =>
          simp only [joinRows] at hj
          rw [hj]
        | cons b2 bs2 => simp at hlen
      | cons a2 as2 =>
        cases bs with
        | nil => simp at hlen
        | cons b2 bs2 =>
          simp only [joinRows] at hj
          have hlab : a.length = b.length := by
            rw [hr1 a (by simp), hr2 b (by simp)]
          obtain ⟨hab, htail⟩ := List.append_inj hj hlab
          have hJ : joinRows (a2 :: as2) = joinRows (b2 :: bs2) := by
            simpa using htail
          have hrec := ih (b2 :: bs2) (by simpa using hlen)
            (fun r hr => hr1 r (by simp [hr]))
            (fun r hr => hr2 r (by simp [hr])) hJ
          rw [hab, hrec]

theorem key_inj (g1 g2 : Game) (h1 : GridOk g1) (h2 : GridOk g2)
    (hsz : g1.board.size = g2.board.size)
    (hk : boardStateKey g1 = boardStateKey g2) : g1.board.grid = g2.board.grid := by
  unfold boardStateKey at hk
  have hsfx : ([':', g1.current_player, ':',
      if g1.first_move then '1' else '0'] : List Char).length =
      ([':', g2.current_player, ':',
      if g2.first_move then '1' else '0'] : List Char).length := by simp
  obtain ⟨hjoin, _⟩ := List.append_inj' hk hsfx
  apply joinRows_inj g1.board.size _ _ ?_ ?_ ?_ hjoin
  · rw [h1.1.1, h2.1.1, hsz]
  · intro row hrow
    exact h1.1.2 row hrow
  · intro row hrow
    rw [h2.1.2 row hrow, hsz]

theorem heuristic1_congr (g1 g2 : Game) (hb : g1.board = g2.board)
    (hai : g1.ai_player = g2.ai_player) : heuristic1 g1 = heuristic1 g2 := by
  unfold heuristic1 cellScore1
  rw [hb, hai]

theorem heuristic2_congr (g1 g2 : Game) (hb : g1.board = g2.board)
    (hai : g1.ai_player = g2.ai_player) : heuristic2 g1 = heuristic2 g2 := by
  unfold heuristic2 cellScore2
  rw [hb, hai]

theorem evaluatePosition_congr (g1 g2 : Game) (hb : g1.board = g2.board)
    (hai : g1.ai_player = g2.ai_player) (hheur : g1.heuristic = g2.heuristic) :
    g1.evaluatePosition = g2.evaluatePosition := by
  unfold Game.evaluatePosition
  rw [hheur]
  by_cases hh : g2.heuristic = "heuristic_1"
  · rw [if_pos hh, if_pos hh, heuristic1_congr g1 g2 hb hai]
  · rw [if_neg hh, if_neg hh]
    by_cases hh2 : g2.heuristic = "heuristic_2"
    · rw [if_pos hh2, if_pos hh2, heuristic2_congr g1 g2 hb hai]
    · rw [if_neg hh2, if_neg hh2, heuristic1_congr g1 g2 hb hai]

theorem board_ext (b1 b2 : Board) (hs : b1.size = b2.size) (hg : b1.grid = b2.grid) :
    b1 = b2 := by
  cases b1; cases b2
  simp_all

/-- Claim C9 (amended): `probe_score_cached` is transparent for caches all of
whose entries agree with direct evaluation under one fixed configuration (AI
color, heuristic, board size): the probe returns exactly
`evaluate_position()`, and the updated cache is again faithful. -/
theorem claim9_amended (aiP : Char) (heurName : String) (size : Nat)
    (cache : List (List Char × ℚ)) (g : Game)
    (hcf : CacheFaithful aiP heurName size cache)
    (hg : GridOk g) (hai : g.ai_player = aiP) (hheur : g.heuristic = heurName)
    (hsz : g.board.size = size) :
    (probeScoreCached g cache).1 = g.evaluatePosition ∧
    CacheFaithful aiP heurName size (probeScoreCached g cache).2 := by
  cases hlk : List.lookup (boardStateKey g) cache with
  | some v =>
    unfold probeScoreCached
    simp only [hlk]
    constructor
    · exact (hcf _ v hlk g hg hai hheur hsz rfl).symm
    · exact hcf
  | none =>
    unfold probeScoreCached
    simp only [hlk]
    constructor
    · trivial
    · intro k v hlkv g' hg' hai' hheur' hsz' hk
      simp only [List.lookup] at hlkv
      by_cases hkey : (k == boardStateKey g) = true
      · simp only [hkey] at hlkv
        have hkeq : k = boardStateKey g := by
          exact eq_of_beq hkey
        have hveq : v = g.evaluatePosition := by
          injection hlkv with h
          exact h.symm
        subst hveq
        have hkeys : boardStateKey g' = boardStateKey g := by rw [hk, hkeq]
        have hgrid := key_inj g' g hg' hg (by rw [hsz', hsz]) hkeys
        exact evaluatePosition_congr g' g
          (board_ext _ _ (by rw [hsz', hsz]) hgrid)
          (by rw [hai', hai]) (by rw [hheur', hheur])
      · simp only [Bool.not_eq_true] at hkey
        simp only [hkey] at hlkv
        exact hcf k v hlkv g' hg' hai' hheur' hsz' hk

/-- Counterexample to C9 as stated: probing the same board under one AI color
and then under the swapped colors returns the stale first score, which differs
from direct evaluation (the key omits the configuration). -/
theorem claim9_counterexample :
    (probeScoreCached (swapSides gTwoStones) (probeScoreCached gTwoStones []).2).1 ≠
    (swapSides gTwoStones).evaluatePosition := by decide

/-- Witness for the amended C9 starting from the empty cache. -/
theorem claim9_witness :
    CacheFaithful 'O' "heuristic_1" 6 [] ∧
    (probeScoreCached gCenterStone []).1 = gCenterStone.evaluatePosition ∧
    CacheFaithful 'O' "heuristic_1" 6 (probeScoreCached gCenterStone []).2 := by
  have hcf : CacheFaithful 'O' "heuristic_1" 6 [] := by
    intro k v hlk
    simp [List.lookup] at hlk
  exact ⟨hcf, claim9_amended 'O' "heuristic_1" 6 [] gCenterStone hcf
    (by decide) (by decide) (by decide) (by decide)⟩

end C6V

namespace C6V

/-! ### Sorted-set membership lemmas -/

theorem mem_insertSorted (a m : Coord) :
    ∀ l : List Coord, a ∈ insertSorted m l ↔ a = m ∨ a ∈ l := by
  intro l
  induction l with
  | nil => simp [insertSorted]
  | cons c rest ih =>
    simp only [insertSorted]
    by_cases hmc : m = c
    · rw [if_pos hmc]
      subst hmc
      constructor
      · intro h; exact Or.inr h
      · rintro (rfl | h)
        · simp
        · exact h
    · rw [if_neg hmc]
      by_cases hle : coordLe m c
      · rw [if_pos hle]
        simp [or_comm, or_assoc, or_left_comm]
      · rw [if_neg hle]
        simp only [List.mem_cons, ih]
        tauto

theorem mem_sortDedup_aux (a : Coord) :
    ∀ (l : List Coord) (acc : List Coord),
      a ∈ l.foldl (fun acc m => insertSorted m acc) acc ↔ a ∈ acc ∨ a ∈ l := by
  intro l
  induction l with
  | nil => simp
  | cons c rest ih =>
    intro acc
    simp only [List.foldl_cons, ih, mem_insertSorted, List.mem_cons]
    tauto

theorem mem_sortDedup (a : Coord) (l : List Coord) : a ∈ sortDedup l ↔ a ∈ l := by
  unfold sortDedup
  rw [mem_sortDedup_aux]
  simp

theorem mem_immediateBlockersOf (g : Game) (opp : Char) (m : Coord) :
    m ∈ MM.immediateBlockersOf g opp ↔
      m ∈ g.available_moves ∧
      MM.isWinAfterPlacement (MM.simulate g [m] opp) m = true := by
  unfold MM.immediateBlockersOf
  rw [mem_sortDedup, List.mem_filter]
  exact Iff.rfl

/-! ### The root forced-block branch of minimax (claims C5 and C6) -/

theorem minimax_blockers_branch (g : Game) (d : Nat) (maxi : Bool) (r mc ms : Nat)
    (h2 : ¬ g.getAvailableMoves.length ≤ 2)
    (hb : MM.immediateBlockersOf g (if g.current_player = 'X' then 'O' else 'X') ≠ []) :
    MM.minimaxFn g d maxi r mc ms =
      (0, (MM.immediateBlockersOf g
        (if g.current_player = 'X' then 'O' else 'X')).take 2) := by
  unfold MM.minimaxFn
  simp only []
  rw [if_neg h2, if_pos hb]

/-- Shared root lemma: with at least two opponent one-move win cells (and a
two-stone, minimax-configured, non-small state), `get_ai_move` returns the two
least such cells and they pass the legality gate. -/
theorem minimax_block_result (g : Game) (depth : Nat)
    (halg : g.ai_algorithm = "minimax") (hfm : g.first_move = false)
    (h2 : ¬ g.available_moves.length ≤ 2)
    (hblen : 2 ≤ (MM.immediateBlockersOf g
      (if g.current_player = 'X' then 'O' else 'X')).length) :
    (getAiMove g depth).1 =
      (MM.immediateBlockersOf g (if g.current_player = 'X' then 'O' else 'X')).take 2 := by
  have havail : ¬ (g.getAvailableMoves = []) := by
    intro h
    apply h2
    unfold Game.getAvailableMoves at h
    rw [h]
    simp
  have hbne : MM.immediateBlockersOf g (if g.current_player = 'X' then 'O' else 'X') ≠ [] := by
    intro h
    rw [h] at hblen
    simp at hblen
  have hmm := minimax_blockers_branch g depth true 2 MAX_CANDIDATES 6 h2 hbne
  set blockers := MM.immediateBlockersOf g (if g.current_player = 'X' then 'O' else 'X')
    with hbdef
  have htlen : (blockers.take 2).length = 2 := by
    rw [List.length_take]
    omega
  have hne2 : List.take 2 blockers ≠ [] := by
    intro h
    have := congrArg List.length h
    rw [htlen] at this
    simp at this
  have hall : (List.take 2 blockers).all (fun x => decide (x ∈ g.getAvailableMoves)) = true := by
    rw [List.all_eq_true]
    intro m hm
    rw [decide_eq_true_eq]
    have hmb : m ∈ blockers := List.mem_of_mem_take hm
    exact ((mem_immediateBlockersOf g _ m).mp hmb).1
  unfold getAiMove
  simp only [hfm, halg]
  rw [if_neg havail]
  simp only [if_true, hmm]
  have hgate : ((0 : ℚ), List.take 2 blockers).2 ≠ [] ∧
      (((0 : ℚ), List.take 2 blockers).2.length = if false = true then 1 else 2) ∧
      (((0 : ℚ), List.take 2 blockers).2.all fun x => decide (x ∈ g.getAvailableMoves)) = true := by
    refine ⟨hne2, ?_, hall⟩
    show (List.take 2 blockers).length = if false = true then 1 else 2
    simpa using htlen
  rw [if_pos hgate]
end C6V

namespace C6V

/-- Claim C5 (amended): under the minimax configuration, whenever the opponent
has at least two one-move winning cells (in particular whenever an open
five-in-a-row gives two open ends), the returned turn consists exactly of the
two least such cells, each of which blocks an opponent immediate win.  (With
only a single one-move win cell the engine's legality gate rejects the
singleton list and falls back to unrelated cells; see the counterexample.) -/
theorem claim5_amended (g : Game) (depth : Nat)
    (halg : g.ai_algorithm = "minimax") (hfm : g.first_move = false)
    (h2 : ¬ g.available_moves.length ≤ 2)
    (hblen : 2 ≤ (MM.immediateBlockersOf g
      (if g.current_player = 'X' then 'O' else 'X')).length) :
    (getAiMove g depth).1 =
      (MM.immediateBlockersOf g (if g.current_player = 'X' then 'O' else 'X')).take 2 ∧
    ∀ m ∈ (getAiMove g depth).1,
      MM.isWinAfterPlacement
        (MM.simulate g [m] (if g.current_player = 'X' then 'O' else 'X')) m = true := by
  have h := minimax_block_result g depth halg hfm h2 hblen
  refine ⟨h, ?_⟩
  intro m hm
  rw [h] at hm
  exact ((mem_immediateBlockersOf g _ m).mp (List.mem_of_mem_take hm)).2

/-- Counterexample to C5 as stated: with a five-run open only at `(4, 5)`,
the blocker list is a singleton, the minimax result fails the two-move gate,
and the fallback returns the first two available cells, which do not block. -/
theorem claim5_counterexample :
    MM.immediateBlockersOf gOneBlocker 'X' = [(4, 5)] ∧
    MM.isWinAfterPlacement (MM.simulate gOneBlocker [(4, 5)] 'X') (4, 5) = true ∧
    (getAiMove gOneBlocker 2).1 = [(0, 0), (0, 1)] ∧
    (4, 5) ∉ (getAiMove gOneBlocker 2).1 := by
  refine ⟨by decide, by decide, by decide, by decide⟩

/-- Witness for the amended C5 at the spec's 9×9 scenario: the returned turn
is exactly the two blocking cells of row 4. -/
theorem claim5_witness :
    (getAiMove gBlockScn 2).1 = [(4, 2), (4, 8)] ∧
    ∀ m ∈ (getAiMove gBlockScn 2).1,
      MM.isWinAfterPlacement (MM.simulate gBlockScn [m] 'X') m = true := by
  have h := claim5_amended gBlockScn 2 (by decide) (by decide) (by decide) (by decide)
  constructor
  · rw [h.1]
    decide
  · exact h.2

/-- Claim C6 (amended): the minimax path prioritizes blocking over its own
immediate win — whenever the mover has a one-move win available *and* the
opponent has at least two one-move winning cells, the returned turn is the two
least opponent-win cells, not the mover's winning turn. -/
theorem claim6_amended (g : Game) (depth : Nat)
    (halg : g.ai_algorithm = "minimax") (hfm : g.first_move = false)
    (h2 : ¬ g.available_moves.length ≤ 2)
    (_hwin : ∃ w ∈ g.available_moves,
      MM.isWinAfterPlacement (MM.simulate g [w] g.current_player) w = true)
    (hblen : 2 ≤ (MM.immediateBlockersOf g
      (if g.current_player = 'X' then 'O' else 'X')).length) :
    (getAiMove g depth).1 =
      (MM.immediateBlockersOf g (if g.current_player = 'X' then 'O' else 'X')).take 2 :=
  minimax_block_result g depth halg hfm h2 hblen

/-- Counterexample to C6 as stated: the mover (O) can win outright at `(6, 1)`
yet minimax returns the blocking cells of row 2, and the returned turn wins
nothing. -/
theorem claim6_counterexample :
    MM.isWinAfterPlacement (MM.simulate gWinAndThreat [(6, 1)] 'O') (6, 1) = true ∧
    (getAiMove gWinAndThreat 2).1 = [(2, 1), (2, 7)] ∧
    MM.isWinAfterPlacement
      (MM.simulate gWinAndThreat [(2, 1), (2, 7)] 'O') (2, 1) = false ∧
    MM.isWinAfterPlacement
      (MM.simulate gWinAndThreat [(2, 1), (2, 7)] 'O') (2, 7) = false := by
  refine ⟨by decide, by decide, by decide, by decide⟩

/-- Witness for the amended C6 on the both-present 9×9 position. -/
theorem claim6_witness :
    (getAiMove gWinAndThreat 2).1 =
      (MM.immediateBlockersOf gWinAndThreat
        (if gWinAndThreat.current_player = 'X' then 'O' else 'X')).take 2 :=
  claim6_amended gWinAndThreat 2 (by decide) (by decide) (by decide)
    ⟨(6, 1), by decide, by decide⟩ (by decide)

end C6V

namespace C6V

/-! ### Core-equality toolkit and sorted-set restoration (claim C7) -/

theorem coordLt_iff (a b : Coord) :
    coordLt a b = true ↔ a.1 < b.1 ∨ (a.1 = b.1 ∧ a.2 < b.2) := by
  unfold coordLt
  simp [Nat.beq_eq_true_eq]

theorem coordLe_iff (a b : Coord) :
    coordLe a b = true ↔ a.1 < b.1 ∨ (a.1 = b.1 ∧ a.2 ≤ b.2) := by
  unfold coordLe
  simp [Nat.beq_eq_true_eq]

theorem coordLt_of_le_ne (a b : Coord) (hle : coordLe a b = true) (hne : a ≠ b) :
    coordLt a b = true := by
  rw [coordLt_iff]
  rw [coordLe_iff] at hle
  rcases hle with h | ⟨h1, h2⟩
  · exact Or.inl h
  · right
    refine ⟨h1, ?_⟩
    rcases Nat.lt_or_ge a.2 b.2 with h | h
    · exact h
    · exfalso
      apply hne
      have : a.2 = b.2 := by omega
      exact Prod.ext h1 this

theorem coordLt_of_not_le (a b : Coord) (h : ¬ coordLe a b = true) :
    coordLt b a = true := by
  rw [coordLt_iff]
  rw [coordLe_iff] at h
  push_neg at h
  omega

theorem coordLe_of_lt (a b : Coord) (h : coordLt a b = true) : coordLe a b = true := by
  rw [coordLe_iff]
  rw [coordLt_iff] at h
  omega

theorem coordLt_ne (a b : Coord) (h : coordLt a b = true) : a ≠ b := by
  rw [coordLt_iff] at h
  intro hc
  subst hc
  omega

theorem coordLt_trans (a b c : Coord) (h1 : coordLt a b = true) (h2 : coordLt b c = true) :
    coordLt a c = true := by
  rw [coordLt_iff] at h1 h2 ⊢
  omega

theorem pairwise_insertSorted (m : Coord) :
    ∀ l : List Coord, l.Pairwise (fun a b => coordLt a b = true) →
      (insertSorted m l).Pairwise (fun a b => coordLt a b = true) := by
  intro l
  induction l with
  | nil => intro _; simp [insertSorted]
  | cons c rest ih =>
    intro hp
    obtain ⟨hc, hrest⟩ := List.pairwise_cons.mp hp
    simp only [insertSorted]
    by_cases hmc : m = c
    · rw [if_pos hmc]; exact hp
    · rw [if_neg hmc]
      by_cases hle : coordLe m c
      · rw [if_pos hle]
        refine List.pairwise_cons.mpr ⟨?_, hp⟩
        intro b hb
        rcases List.mem_cons.mp hb with rfl | hb'
        · exact coordLt_of_le_ne m b hle hmc
        · exact coordLt_trans m c b (coordLt_of_le_ne m c hle hmc) (hc b hb')
      · rw [if_neg hle]
        refine List.pairwise_cons.mpr ⟨?_, ih hrest⟩
        intro b hb
        rcases (mem_insertSorted b m rest).mp hb with heq | hb'
        · rw [heq]
          exact coordLt_of_not_le m c hle
        · exact hc b hb'

theorem nodup_of_pairwise_coordLt (l : List Coord)
    (h : l.Pairwise (fun a b => coordLt a b = true)) : l.Nodup :=
  h.imp (fun hab => coordLt_ne _ _ hab)

theorem insertSorted_erase_of_mem (m : Coord) :
    ∀ l : List Coord, l.Pairwise (fun a b => coordLt a b = true) → m ∈ l →
      insertSorted m (l.erase m) = l := by
  intro l
  induction l with
  | nil => intro _ hm; cases hm
  | cons c rest ih =>
    intro hp hm
    obtain ⟨hc, hrest⟩ := List.pairwise_cons.mp hp
    by_cases hmc : m = c
    · subst hmc
      rw [List.erase_cons_head]
      cases rest with
      | nil => rfl
      | cons r rs =>
        have hlt : coordLt m r = true := hc r (by simp)
        simp only [insertSorted]
        rw [if_neg (coordLt_ne m r hlt), if_pos (coordLe_of_lt m r hlt)]
    · have hme : m ∈ rest := by
        rcases List.mem_cons.mp hm with h | h
        · exact absurd h hmc
        · exact h
      rw [List.erase_cons_tail]
      · simp only [insertSorted]
        have hcm : coordLt c m = true := hc m hme
        rw [if_neg hmc]
        rw [if_neg ?hnle]
        · rw [ih hrest hme]
        case hnle =>
          intro hle
          have := coordLt_of_le_ne m c hle hmc
          have := coordLt_trans c m c hcm this
          exact (coordLt_ne c c this) rfl
      · simp only [beq_iff_eq]
        exact fun h => hmc h.symm

theorem coreEq_refl (a : Game) : coreEq a a := rfl

theorem coreEq_trans {a b c : Game} (h1 : coreEq a b) (h2 : coreEq b c) : coreEq a c :=
  h1.trans h2

theorem coreEq_fields {a b : Game} (h : coreEq a b) :
    a.board = b.board ∧ a.available_moves = b.available_moves ∧
    a.current_player = b.current_player ∧ a.first_move = b.first_move ∧
    a.human_player = b.human_player ∧ a.ai_player = b.ai_player ∧
    a.ai_algorithm = b.ai_algorithm ∧ a.heuristic = b.heuristic ∧
    a.last_human_moves = b.last_human_moves := by
  obtain ⟨ba, ca, fa, ha, aa, ala, hea, lra, lca, ava, lha⟩ := a
  obtain ⟨bb, cb, fb, hb, ab, alb, heb, lrb, lcb, avb, lhb⟩ := b
  simp only [coreEq, Game.withLast, Game.mk.injEq] at h
  simp_all

theorem coreEq_of_fields {a b : Game}
    (h1 : a.board = b.board) (h2 : a.available_moves = b.available_moves)
    (h3 : a.current_player = b.current_player) (h4 : a.first_move = b.first_move)
    (h5 : a.human_player = b.human_player) (h6 : a.ai_player = b.ai_player)
    (h7 : a.ai_algorithm = b.ai_algorithm) (h8 : a.heuristic = b.heuristic)
    (h9 : a.last_human_moves = b.last_human_moves) : coreEq a b := by
  obtain ⟨ba, ca, fa, ha, aa, ala, hea, lra, lca, ava, lha⟩ := a
  obtain ⟨bb, cb, fb, hb, ab, alb, heb, lrb, lcb, avb, lhb⟩ := b
  simp only [coreEq, Game.withLast, Game.mk.injEq]
  simp_all

theorem eq_of_coreEq {a b : Game} (h : coreEq a b)
    (hr : a.last_row = b.last_row) (hc : a.last_col = b.last_col) : a = b := by
  obtain ⟨ba, ca, fa, ha, aa, ala, hea, lra, lca, ava, lha⟩ := a
  obtain ⟨bb, cb, fb, hb, ab, alb, heb, lrb, lcb, avb, lhb⟩ := b
  simp only [coreEq, Game.withLast, Game.mk.injEq] at h
  simp_all

theorem WF_of_coreEq {a b : Game} (h : coreEq a b) (hWF : WF b) : WF a := by
  obtain ⟨h1, h2, _⟩ := coreEq_fields h
  unfold WF at hWF ⊢
  rw [h1, h2]
  exact hWF

theorem withLast_self (g : Game) : g.withLast g.last_row g.last_col = g := by
  obtain ⟨b, c, f, h, a, al, he, lr, lc, av, lh⟩ := g
  rfl

end C6V

namespace C6V

theorem set_getD_eq_self {α : Type} (d : α) :
    ∀ (l : List α) (i : Nat), l.set i (l.getD i d) = l := by
  intro l
  induction l with
  | nil => intro i; rfl
  | cons c rest ih =>
    intro i
    cases i with
    | zero => simp [List.getD]
    | succ n =>
      simp only [List.set_cons_succ, List.getD_cons_succ]
      rw [ih]

theorem setCell_cancel (b : Board) (x y : Nat) (v : Char) :
    (b.setCell x y v).setCell x y (b.cell x y) = b := by
  unfold Board.setCell Board.cell
  by_cases hx : x < b.grid.length
  · have hgetD : (b.grid.set x ((b.grid.getD x []).set y v)).getD x [] =
        (b.grid.getD x []).set y v := by
      rw [List.getD_eq_getElem?_getD, List.getElem?_set_eq_of_lt _ hx, Option.getD_some]
    congr 1
    rw [hgetD, List.set_set, List.set_set, set_getD_eq_self '.', set_getD_eq_self []]
  · have hle := Nat.le_of_not_lt hx
    have h1 : b.grid.set x ((b.grid.getD x []).set y v) = b.grid :=
      List.set_eq_of_length_le hle
    congr 1
    show (b.grid.set x ((b.grid.getD x []).set y v)).set x
        (((b.grid.set x ((b.grid.getD x []).set y v)).getD x []).set y
          ((b.grid.getD x []).getD y '.')) = b.grid
    rw [h1]
    exact List.set_eq_of_length_le hle

theorem setCell_noop (b : Board) (x y : Nat) (v : Char) (hsq : b.Square)
    (h : ¬ (x < b.size ∧ y < b.size)) : b.setCell x y v = b := by
  unfold Board.setCell
  by_cases hx : x < b.size
  · have hy : ¬ y < b.size := fun hy => h ⟨hx, hy⟩
    have hrow : (b.grid.getD x []).set y v = b.grid.getD x [] := by
      apply List.set_eq_of_length_le
      rw [Board.row_length_of_square b hsq x hx]
      omega
    congr 1
    rw [hrow, set_getD_eq_self []]
  · congr 1
    apply List.set_eq_of_length_le
    rw [hsq.1]
    omega

theorem prod_ne_split {m : Coord} {x y : Nat} (hne : m ≠ (x, y)) :
    x ≠ m.1 ∨ y ≠ m.2 := by
  by_cases h1 : x = m.1
  · right
    intro h2
    apply hne
    obtain ⟨a, b⟩ := m
    simp_all
  · exact Or.inl h1

theorem WF_setStone (g : Game) (x y : Nat) (s : Char) (hs : s ≠ '.') (hWF : WF g) :
    WF (AB.setStone g x y s) := by
  obtain ⟨hsq, hpw, hmem, hcell⟩ := hWF
  have hnd := nodup_of_pairwise_coordLt _ hpw
  refine ⟨Board.square_setCell _ _ _ _ hsq,
    List.Pairwise.sublist (List.erase_sublist _ _) hpw, ?_, ?_⟩
  · intro m hm
    have hme : m ∈ g.available_moves.erase (x, y) := hm
    rw [hnd.mem_erase_iff] at hme
    obtain ⟨hne, hm2⟩ := hme
    obtain ⟨hb, hc⟩ := hmem m hm2
    refine ⟨hb, ?_⟩
    show (g.board.setCell x y s).cell m.1 m.2 = '.'
    rw [Board.cell_setCell_ne g.board x y m.1 m.2 s (prod_ne_split hne)]
    exact hc
  · intro i hi j hj hcl
    by_cases hij : (i, j) = (x, y)
    · exfalso
      rw [Prod.mk.injEq] at hij
      obtain ⟨rfl, rfl⟩ := hij
      have hxl : i < g.board.grid.length := by rw [hsq.1]; exact hi
      have hyl : j < (g.board.grid.getD i []).length := by
        rw [Board.row_length_of_square g.board hsq i hi]; exact hj
      have hcl2 : (g.board.setCell i j s).cell i j = '.' := hcl
      rw [Board.cell_setCell_self g.board i j s hxl hyl] at hcl2
      exact hs hcl2
    · have hcl2 : (g.board.setCell x y s).cell i j = '.' := hcl
      rw [Board.cell_setCell_ne g.board x y i j s
        (prod_ne_split (m := (i, j)) hij)] at hcl2
      have hmem2 := hcell i hi j hj hcl2
      show (i, j) ∈ g.available_moves.erase (x, y)
      rw [hnd.mem_erase_iff]
      exact ⟨hij, hmem2⟩

end C6V

namespace C6V

theorem WF_removeStone (g : Game) (x y : Nat) (hWF : WF g) :
    WF (AB.removeStone g x y) := by
  obtain ⟨hsq, hpw, hmem, hcell⟩ := hWF
  unfold AB.removeStone Game.addMove
  simp only [Board.size_setCell]
  by_cases hin : x < g.board.size ∧ y < g.board.size
  · rw [if_pos hin]
    have hxl : x < g.board.grid.length := by rw [hsq.1]; exact hin.1
    have hyl : y < (g.board.grid.getD x []).length := by
      rw [Board.row_length_of_square g.board hsq x hin.1]; exact hin.2
    refine ⟨Board.square_setCell _ _ _ _ hsq, pairwise_insertSorted _ _ hpw, ?_, ?_⟩
    · intro m hm
      have hm2 : m = (x, y) ∨ m ∈ g.available_moves :=
        (mem_insertSorted m (x, y) g.available_moves).mp hm
      by_cases hmx : m = (x, y)
      · subst hmx
        refine ⟨hin, ?_⟩
        show (g.board.setCell x y '.').cell x y = '.'
        exact Board.cell_setCell_self g.board x y '.' hxl hyl
      · rcases hm2 with h | h
        · exact absurd h hmx
        · obtain ⟨hb, hc⟩ := hmem m h
          refine ⟨hb, ?_⟩
          show (g.board.setCell x y '.').cell m.1 m.2 = '.'
          rw [Board.cell_setCell_ne g.board x y m.1 m.2 '.' (prod_ne_split hmx)]
          exact hc
    · intro i hi j hj hcl
      by_cases hij : (i, j) = (x, y)
      · rw [hij]
        exact (mem_insertSorted (x, y) (x, y) g.available_moves).mpr (Or.inl rfl)
      · have hcl2 : (g.board.setCell x y '.').cell i j = '.' := hcl
        rw [Board.cell_setCell_ne g.board x y i j '.'
          (prod_ne_split (m := (i, j)) hij)] at hcl2
        exact (mem_insertSorted (i, j) (x, y) g.available_moves).mpr
          (Or.inr (hcell i hi j hj hcl2))
  · rw [if_neg hin]
    have hb := setCell_noop g.board x y '.' hsq hin
    have : ({ g with board := g.board.setCell x y '.' } : Game) = g := by
      rw [hb]
    rw [this]
    exact ⟨hsq, hpw, hmem, hcell⟩

theorem removeStone_general (g h : Game) (x y : Nat) (s : Char) (hWF : WF g)
    (hmem : (x, y) ∈ g.available_moves)
    (hb : h.board = g.board.setCell x y s)
    (ha : h.available_moves = g.available_moves.erase (x, y)) :
    AB.removeStone h x y =
      { h with board := g.board, available_moves := g.available_moves } := by
  obtain ⟨hsq, hpw, hmemall, _⟩ := hWF
  obtain ⟨hbnd, hdot⟩ := hmemall (x, y) hmem
  have hboard : h.board.setCell x y '.' = g.board := by
    rw [hb]
    have := setCell_cancel g.board x y s
    rw [hdot] at this
    exact this
  have havail : insertSorted (x, y) h.available_moves = g.available_moves := by
    rw [ha]
    exact insertSorted_erase_of_mem (x, y) g.available_moves hpw hmem
  unfold AB.removeStone Game.addMove
  have hsz : ({ h with board := h.board.setCell x y '.' } : Game).board.size =
      g.board.size := by
    show (h.board.setCell x y '.').size = g.board.size
    rw [hboard]
  rw [if_pos (by rw [hsz]; exact hbnd)]
  obtain ⟨bh, ch, fh, hh, ah, alh, heh, lrh, lch, avh, lhh⟩ := h
  simp [Game.mk.injEq, hboard, havail]

theorem removeStone_setStone (g : Game) (x y : Nat) (s : Char) (hWF : WF g)
    (hmem : (x, y) ∈ g.available_moves) :
    AB.removeStone (AB.setStone g x y s) x y = g.withLast (some x) (some y) := by
  rw [removeStone_general g (AB.setStone g x y s) x y s hWF hmem rfl rfl]
  obtain ⟨b, c, f, hu, a, al, he, lr, lc, av, lh⟩ := g
  rfl

end C6V

namespace C6V

/-! ### Prioritized-move list properties -/

theorem mem_insertBy {α : Type} (le : α → α → Bool) (a x : α) :
    ∀ l : List α, a ∈ MM.insertBy le x l ↔ a = x ∨ a ∈ l := by
  intro l
  induction l with
  | nil => simp [MM.insertBy]
  | cons c rest ih =>
    simp only [MM.insertBy]
    by_cases hle : le x c
    · rw [if_pos hle]
      simp [or_comm, or_assoc, or_left_comm]
    · rw [if_neg hle]
      simp only [List.mem_cons, ih]
      tauto

theorem mem_sortBy {α : Type} (le : α → α → Bool) (a : α) :
    ∀ l : List α, a ∈ MM.sortBy le l ↔ a ∈ l := by
  intro l
  induction l with
  | nil => simp [MM.sortBy]
  | cons c rest ih =>
    show a ∈ MM.insertBy le c (MM.sortBy le rest) ↔ _
    rw [mem_insertBy]
    simp only [List.mem_cons]
    rw [← ih]

theorem mem_relevantCells (b : Board) (m : Coord) (hm : m ∈ AB.relevantCells b) :
    b.inBounds m.1 m.2 ∧ b.cell m.1 m.2 = '.' := by
  unfold AB.relevantCells at hm
  rw [mem_sortDedup, List.mem_flatMap] at hm
  obtain ⟨src, _, hmm⟩ := hm
  rw [List.mem_filterMap] at hmm
  obtain ⟨p, _, hp⟩ := hmm
  by_cases hc : b.inBoundsI p.1 p.2 ∧ b.cellI p.1 p.2 = '.'
  · rw [if_pos hc] at hp
    obtain ⟨⟨h1, h2, h3, h4⟩, hdot⟩ := hc
    injection hp with hp
    subst hp
    constructor
    · constructor <;> simp <;> omega
    · rw [← Board.cellI_eq_cell b p.1 p.2 h1 h3]
      exact hdot
  · rw [if_neg hc] at hp
    cases hp

theorem mem_bucket_fst {fn : Coord → Option (Coord × Nat)}
    (hfn : ∀ m p, fn m = some p → p.1 = m) (le : Coord × Nat → Coord × Nat → Bool)
    (l : List Coord) (x : Coord)
    (hx : x ∈ (MM.sortBy le (l.filterMap fn)).map Prod.fst) : x ∈ l := by
  rw [List.mem_map] at hx
  obtain ⟨pair, hp, rfl⟩ := hx
  rw [mem_sortBy, List.mem_filterMap] at hp
  obtain ⟨m, hm, hfm⟩ := hp
  rw [hfn m pair hfm]
  exact hm

theorem dedup_foldl_nodup :
    ∀ (l acc : List Coord), acc.Nodup →
      (l.foldl (fun acc m => if m ∈ acc then acc else acc ++ [m]) acc).Nodup := by
  intro l
  induction l with
  | nil => intro acc h; exact h
  | cons c rest ih =>
    intro acc hacc
    simp only [List.foldl_cons]
    by_cases hc : c ∈ acc
    · rw [if_pos hc]; exact ih acc hacc
    · rw [if_neg hc]
      apply ih
      rw [List.nodup_append]
      refine ⟨hacc, List.nodup_singleton c, ?_⟩
      intro a ha hb
      rw [List.mem_singleton] at hb
      subst hb
      exact hc ha

theorem dedup_foldl_mem :
    ∀ (l acc : List Coord) (a : Coord),
      a ∈ l.foldl (fun acc m => if m ∈ acc then acc else acc ++ [m]) acc →
      a ∈ acc ∨ a ∈ l := by
  intro l
  induction l with
  | nil => intro acc a h; exact Or.inl h
  | cons c rest ih =>
    intro acc a h
    simp only [List.foldl_cons] at h
    by_cases hc : c ∈ acc
    · rw [if_pos hc] at h
      rcases ih acc a h with h | h
      · exact Or.inl h
      · exact Or.inr (by simp [h])
    · rw [if_neg hc] at h
      rcases ih _ a h with h | h
      · rcases List.mem_append.mp h with h | h
        · exact Or.inl h
        · rw [List.mem_singleton] at h
          exact Or.inr (by simp [h])
      · exact Or.inr (by simp [h])

theorem mem_dedupKeepOrder (l : List Coord) (a : Coord)
    (h : a ∈ AB.dedupKeepOrder l) : a ∈ l := by
  unfold AB.dedupKeepOrder at h
  rcases dedup_foldl_mem l [] a h with h | h
  · cases h
  · exact h

theorem dedupKeepOrder_nodup (l : List Coord) : (AB.dedupKeepOrder l).Nodup :=
  dedup_foldl_nodup l [] List.nodup_nil

end C6V

namespace C6V

theorem movesToCheck_subset (g : Game) (hWF : WF g) :
    ∀ x ∈ (if AB.relevantCells g.board ≠ [] then AB.relevantCells g.board
           else g.getAvailableMoves),
      x ∈ g.available_moves := by
  intro x hx
  split at hx
  · obtain ⟨hb, hc⟩ := mem_relevantCells g.board x hx
    exact hWF.2.2.2 x.1 hb.1 x.2 hb.2 hc
  · exact hx

end C6V

namespace C6V

theorem mem_result_six (l : List Coord) (p : Coord → Bool)
    (le : Coord × Nat → Coord × Nat → Bool)
    (f1 f2 f3 f4 f5 : Coord → Option (Coord × Nat))
    (h1 : ∀ a q, f1 a = some q → q.1 = a)
    (h2 : ∀ a q, f2 a = some q → q.1 = a)
    (h3 : ∀ a q, f3 a = some q → q.1 = a)
    (h4 : ∀ a q, f4 a = some q → q.1 = a)
    (h5 : ∀ a q, f5 a = some q → q.1 = a)
    (m : Coord)
    (hm : m ∈ l.filter p ++
          (MM.sortBy le (l.filterMap f1)).map Prod.fst ++
          (MM.sortBy le (l.filterMap f2)).map Prod.fst ++
          (MM.sortBy le (l.filterMap f3)).map Prod.fst ++
          (MM.sortBy le (l.filterMap f4)).map Prod.fst ++
          (MM.sortBy le (l.filterMap f5)).map Prod.fst) : m ∈ l := by
  rcases List.mem_append.mp hm with hm | hm
  rotate_left
  · exact mem_bucket_fst h5 le l m hm
  rcases List.mem_append.mp hm with hm | hm
  rotate_left
  · exact mem_bucket_fst h4 le l m hm
  rcases List.mem_append.mp hm with hm | hm
  rotate_left
  · exact mem_bucket_fst h3 le l m hm
  rcases List.mem_append.mp hm with hm | hm
  rotate_left
  · exact mem_bucket_fst h2 le l m hm
  rcases List.mem_append.mp hm with hm | hm
  · exact List.mem_of_mem_filter hm
  · exact mem_bucket_fst h1 le l m hm

theorem getPrioritizedMoves_subset (g : Game) (limit : Nat) (hWF : WF g) :
    ∀ m ∈ AB.getPrioritizedMoves g limit, m ∈ g.available_moves := by
  intro m hm
  have hfn : ∀ (val : Coord → Nat) (cond : Coord → Prop) [DecidablePred cond],
      ∀ (a : Coord) (p : Coord × Nat),
        (if cond a then some (a, val a) else none) = some p → p.1 = a := by
    intro val cond _ a p h
    split at h
    · cases h; rfl
    · cases h
  have hmtc := movesToCheck_subset g hWF
  simp only [AB.getPrioritizedMoves] at hm
  split at hm
  · cases hm
  · split at hm
    · exact List.mem_of_mem_filter ((List.take_sublist _ _).subset hm)
    · split at hm
      · exact hmtc m (mem_result_six _ _ _ _ _ _ _ _
          (hfn _ _) (hfn _ _) (hfn _ _) (hfn _ _) (hfn _ _) m
          (mem_dedupKeepOrder _ m ((List.take_sublist _ _).subset hm)))
      · exact hmtc m (mem_result_six _ _ _ _ _ _ _ _
          (hfn _ _) (hfn _ _) (hfn _ _) (hfn _ _) (hfn _ _) m
          (mem_dedupKeepOrder _ m hm))

theorem getPrioritizedMoves_nodup (g : Game) (limit : Nat) (hWF : WF g) :
    (AB.getPrioritizedMoves g limit).Nodup := by
  have hnd : g.available_moves.Nodup := nodup_of_pairwise_coordLt _ hWF.2.1
  simp only [AB.getPrioritizedMoves]
  split
  · exact List.nodup_nil
  · split
    · exact List.Nodup.sublist (List.take_sublist _ _) (hnd.filter _)
    · split
      · exact List.Nodup.sublist (List.take_sublist _ _) (dedupKeepOrder_nodup _)
      · exact dedupKeepOrder_nodup _

end C6V

namespace C6V

theorem coreEq_withLast (g : Game) (r c : Option Nat) : coreEq (g.withLast r c) g := rfl

theorem withLast_congr {a b : Game} (h : coreEq a b) (r c : Option Nat) :
    a.withLast r c = b.withLast r c := by
  apply eq_of_coreEq
  · exact coreEq_trans (coreEq_withLast a r c) (coreEq_trans h (coreEq_withLast b r c).symm)
  · rfl
  · rfl

theorem maxInner_core (recur : Game → AB.Score → AB.Score → Bool → AB.Score × Game)
    (hrec : ∀ g α β m, WF g → (recur g α β m).2 = g) (x1y1 : Coord) :
    ∀ (rest : List Coord) (g : Game) (α β ms : AB.Score), WF g →
      (∀ m ∈ rest, m ∈ g.available_moves) →
      coreEq (AB.maxInner recur x1y1 g rest α β ms).1 g := by
  intro rest
  induction rest with
  | nil => intro g α β ms _ _; exact coreEq_refl g
  | cons c tail ih =>
    obtain ⟨x2, y2⟩ := c
    intro g α β ms hWF hsub
    have hm2 : (x2, y2) ∈ g.available_moves := hsub _ (List.mem_cons_self _ _)
    have hWF1 : WF (AB.setStone g x2 y2 cAI) := WF_setStone g x2 y2 cAI (by decide) hWF
    simp only [AB.maxInner]
    rw [hrec _ α β false hWF1, removeStone_setStone g x2 y2 cAI hWF hm2]
    split
    · exact rfl
    · refine coreEq_trans (ih _ _ _ _ (WF_of_coreEq rfl hWF) ?_) rfl
      intro m hm
      exact hsub m (List.mem_cons_of_mem _ hm)

theorem minInner_core (recur : Game → AB.Score → AB.Score → Bool → AB.Score × Game)
    (hrec : ∀ g α β m, WF g → (recur g α β m).2 = g) (x1y1 : Coord) :
    ∀ (rest : List Coord) (g : Game) (α β ms : AB.Score), WF g →
      (∀ m ∈ rest, m ∈ g.available_moves) →
      coreEq (AB.minInner recur x1y1 g rest α β ms).1 g := by
  intro rest
  induction rest with
  | nil => intro g α β ms _ _; exact coreEq_refl g
  | cons c tail ih =>
    obtain ⟨x2, y2⟩ := c
    intro g α β ms hWF hsub
    have hm2 : (x2, y2) ∈ g.available_moves := hsub _ (List.mem_cons_self _ _)
    have hWF1 : WF (AB.setStone g x2 y2 cPLAYER) := WF_setStone g x2 y2 cPLAYER (by decide) hWF
    simp only [AB.minInner]
    rw [hrec _ α β true hWF1, removeStone_setStone g x2 y2 cPLAYER hWF hm2]
    split
    · exact rfl
    · refine coreEq_trans (ih _ _ _ _ (WF_of_coreEq rfl hWF) ?_) rfl
      intro m hm
      exact hsub m (List.mem_cons_of_mem _ hm)

end C6V

namespace C6V

theorem maxOuter_core (recur : Game → AB.Score → AB.Score → Bool → AB.Score × Game)
    (hrec : ∀ g α β m, WF g → (recur g α β m).2 = g) (origR origC : Option Nat) :
    ∀ (moves : List Coord) (g : Game) (α β ms : AB.Score), WF g → moves.Nodup →
      (∀ m ∈ moves, m ∈ g.available_moves) →
      (AB.maxOuter recur origR origC g moves α β ms).2 = g.withLast origR origC := by
  intro moves
  induction moves with
  | nil => intro g α β ms _ _ _; rfl
  | cons c tail ih =>
    obtain ⟨x1, y1⟩ := c
    intro g α β ms hWF hnd hsub
    obtain ⟨hnotin, hndt⟩ := List.nodup_cons.mp hnd
    have hm1 : (x1, y1) ∈ g.available_moves := hsub _ (List.mem_cons_self _ _)
    have hWF1 : WF (AB.setStone g x1 y1 cAI) := WF_setStone g x1 y1 cAI (by decide) hWF
    have hndav : g.available_moves.Nodup := nodup_of_pairwise_coordLt _ hWF.2.1
    have hsub1 : ∀ m ∈ tail, m ∈ (AB.setStone g x1 y1 cAI).available_moves := by
      intro m hm
      show m ∈ g.available_moves.erase (x1, y1)
      rw [hndav.mem_erase_iff]
      exact ⟨fun heq => hnotin (heq ▸ hm), hsub m (List.mem_cons_of_mem _ hm)⟩
    have hinner := maxInner_core recur hrec (x1, y1) tail _ α β ms hWF1 hsub1
    simp only [AB.maxOuter]
    have hfk := coreEq_fields hinner
    have hrem := removeStone_general g
      (AB.maxInner recur (x1, y1) (AB.setStone g x1 y1 cAI) tail α β ms).1
      x1 y1 cAI hWF hm1 hfk.1 hfk.2.1
    have hc3 : coreEq
        ({ (AB.maxInner recur (x1, y1) (AB.setStone g x1 y1 cAI) tail α β ms).1 with
           board := g.board, available_moves := g.available_moves } : Game) g :=
      coreEq_of_fields rfl rfl hfk.2.2.1 hfk.2.2.2.1 hfk.2.2.2.2.1 hfk.2.2.2.2.2.1
        hfk.2.2.2.2.2.2.1 hfk.2.2.2.2.2.2.2.1 hfk.2.2.2.2.2.2.2.2
    split
    · rw [hrem]
      exact withLast_congr hc3 origR origC
    · rw [hrem, ih _ _ _ _ (WF_of_coreEq hc3 hWF) hndt
        (fun m hm => hsub m (List.mem_cons_of_mem _ hm))]
      exact withLast_congr hc3 origR origC

theorem minOuter_core (recur : Game → AB.Score → AB.Score → Bool → AB.Score × Game)
    (hrec : ∀ g α β m, WF g → (recur g α β m).2 = g) (origR origC : Option Nat) :
    ∀ (moves : List Coord) (g : Game) (α β ms : AB.Score), WF g → moves.Nodup →
      (∀ m ∈ moves, m ∈ g.available_moves) →
      (AB.minOuter recur origR origC g moves α β ms).2 = g.withLast origR origC := by
  intro moves
  induction moves with
  | nil => intro g α β ms _ _ _; rfl
  | cons c tail ih =>
    obtain ⟨x1, y1⟩ := c
    intro g α β ms hWF hnd hsub
    obtain ⟨hnotin, hndt⟩ := List.nodup_cons.mp hnd
    have hm1 : (x1, y1) ∈ g.available_moves := hsub _ (List.mem_cons_self _ _)
    have hWF1 : WF (AB.setStone g x1 y1 cPLAYER) :=
      WF_setStone g x1 y1 cPLAYER (by decide) hWF
    have hndav : g.available_moves.Nodup := nodup_of_pairwise_coordLt _ hWF.2.1
    have hsub1 : ∀ m ∈ tail, m ∈ (AB.setStone g x1 y1 cPLAYER).available_moves := by
      intro m hm
      show m ∈ g.available_moves.erase (x1, y1)
      rw [hndav.mem_erase_iff]
      exact ⟨fun heq => hnotin (heq ▸ hm), hsub m (List.mem_cons_of_mem _ hm)⟩
    have hinner := minInner_core recur hrec (x1, y1) tail _ α β ms hWF1 hsub1
    simp only [AB.minOuter]
    have hfk := coreEq_fields hinner
    have hrem := removeStone_general g
      (AB.minInner recur (x1, y1) (AB.setStone g x1 y1 cPLAYER) tail α β ms).1
      x1 y1 cPLAYER hWF hm1 hfk.1 hfk.2.1
    have hc3 : coreEq
        ({ (AB.minInner recur (x1, y1) (AB.setStone g x1 y1 cPLAYER) tail α β ms).1 with
           board := g.board, available_moves := g.available_moves } : Game) g :=
      coreEq_of_fields rfl rfl hfk.2.2.1 hfk.2.2.2.1 hfk.2.2.2.2.1 hfk.2.2.2.2.2.1
        hfk.2.2.2.2.2.2.1 hfk.2.2.2.2.2.2.2.1 hfk.2.2.2.2.2.2.2.2
    split
    · rw [hrem]
      exact withLast_congr hc3 origR origC
    · rw [hrem, ih _ _ _ _ (WF_of_coreEq hc3 hWF) hndt
        (fun m hm => hsub m (List.mem_cons_of_mem _ hm))]
      exact withLast_congr hc3 origR origC

end C6V

namespace C6V

theorem maxNode_state (recur : Game → AB.Score → AB.Score → Bool → AB.Score × Game)
    (hrec : ∀ g α β m, WF g → (recur g α β m).2 = g) (g : Game) (α β : AB.Score)
    (hWF : WF g) : (AB.maxNode recur g α β).2 = g := by
  show (AB.maxOuter recur g.last_row g.last_col g
    (AB.getPrioritizedMoves g 20) α β AB.Score.ninf).2 = g
  rw [maxOuter_core recur hrec g.last_row g.last_col (AB.getPrioritizedMoves g 20) g
    α β AB.Score.ninf hWF (getPrioritizedMoves_nodup g 20 hWF)
    (getPrioritizedMoves_subset g 20 hWF), withLast_self]

theorem minNode_state (recur : Game → AB.Score → AB.Score → Bool → AB.Score × Game)
    (hrec : ∀ g α β m, WF g → (recur g α β m).2 = g) (g : Game) (α β : AB.Score)
    (hWF : WF g) : (AB.minNode recur g α β).2 = g := by
  show (AB.minOuter recur g.last_row g.last_col g
    (AB.getPrioritizedMoves g 20) α β AB.Score.pinf).2 = g
  rw [minOuter_core recur hrec g.last_row g.last_col (AB.getPrioritizedMoves g 20) g
    α β AB.Score.pinf hWF (getPrioritizedMoves_nodup g 20 hWF)
    (getPrioritizedMoves_subset g 20 hWF), withLast_self]

theorem alphaBeta_state (heur : String) :
    ∀ (d : Nat) (g : Game) (α β : AB.Score) (maxi : Bool), WF g →
      (AB.alphaBeta heur d g α β maxi).2 = g := by
  intro d
  induction d with
  | zero => intro g α β maxi _; rfl
  | succ n ih =>
    intro g α β maxi hWF
    simp only [AB.alphaBeta]
    split
    · rfl
    · split
      · exact maxNode_state _ (fun g1 α1 β1 m1 h1 => ih g1 α1 β1 m1 h1) g α β hWF
      · exact minNode_state _ (fun g1 α1 β1 m1 h1 => ih g1 α1 β1 m1 h1) g α β hWF

end C6V

namespace C6V

theorem immWinScan_core (full : List Coord) :
    ∀ (rest : List Coord) (g : Game), WF g →
      (∀ m ∈ rest, m ∈ g.available_moves) →
      coreEq (AB.immWinScan full g rest).2 g := by
  intro rest
  induction rest with
  | nil => intro g _ _; exact coreEq_refl g
  | cons c tail ih =>
    obtain ⟨x1, y1⟩ := c
    intro g hWF hsub
    have hm1 : (x1, y1) ∈ g.available_moves := hsub _ (List.mem_cons_self _ _)
    simp only [AB.immWinScan]
    split
    · split
      · exact coreEq_refl g
      · split
        · exact coreEq_refl g
        · split
          · exact coreEq_refl g
          · exact coreEq_refl g
    · rw [removeStone_setStone g x1 y1 cAI hWF hm1]
      split
      · exact rfl
      · exact coreEq_trans
          (ih _ (WF_of_coreEq rfl hWF) (fun m hm => hsub m (List.mem_cons_of_mem _ hm)))
          rfl

theorem fbInner_core (heur : String) (d : Nat) (x1y1 : Coord) :
    ∀ (rest : List Coord) (g : Game) (α best : AB.Score) (bm : Option (List Coord)),
      WF g → (∀ m ∈ rest, m ∈ g.available_moves) →
      coreEq (AB.fbInner heur d x1y1 g rest α best bm).1 g := by
  intro rest
  induction rest with
  | nil => intro g α best bm _ _; exact coreEq_refl g
  | cons c tail ih =>
    obtain ⟨x2, y2⟩ := c
    intro g α best bm hWF hsub
    have hm2 : (x2, y2) ∈ g.available_moves := hsub _ (List.mem_cons_self _ _)
    have hWF1 : WF (AB.setStone g x2 y2 cAI) := WF_setStone g x2 y2 cAI (by decide) hWF
    simp only [AB.fbInner]
    rw [alphaBeta_state heur d _ α AB.Score.pinf false hWF1,
      removeStone_setStone g x2 y2 cAI hWF hm2]
    exact coreEq_trans
      (ih _ _ _ _ (WF_of_coreEq rfl hWF) (fun m hm => hsub m (List.mem_cons_of_mem _ hm)))
      rfl

theorem fbOuter_core (heur : String) (d : Nat) :
    ∀ (moves : List Coord) (g : Game) (α best : AB.Score) (bm : Option (List Coord)),
      WF g → moves.Nodup → (∀ m ∈ moves, m ∈ g.available_moves) →
      coreEq (AB.fbOuter heur d g moves α best bm).1 g := by
  intro moves
  induction moves with
  | nil => intro g α best bm _ _ _; exact coreEq_refl g
  | cons c tail ih =>
    obtain ⟨x1, y1⟩ := c
    intro g α best bm hWF hnd hsub
    obtain ⟨hnotin, hndt⟩ := List.nodup_cons.mp hnd
    have hm1 : (x1, y1) ∈ g.available_moves := hsub _ (List.mem_cons_self _ _)
    have hWF1 : WF (AB.setStone g x1 y1 cAI) := WF_setStone g x1 y1 cAI (by decide) hWF
    have hndav : g.available_moves.Nodup := nodup_of_pairwise_coordLt _ hWF.2.1
    have hsub1 : ∀ m ∈ tail, m ∈ (AB.setStone g x1 y1 cAI).available_moves := by
      intro m hm
      show m ∈ g.available_moves.erase (x1, y1)
      rw [hndav.mem_erase_iff]
      exact ⟨fun heq => hnotin (heq ▸ hm), hsub m (List.mem_cons_of_mem _ hm)⟩
    have hinner := fbInner_core heur d (x1, y1) tail _ α best bm hWF1 hsub1
    simp only [AB.fbOuter]
    have hfk := coreEq_fields hinner
    have hrem := removeStone_general g
      (AB.fbInner heur d (x1, y1) (AB.setStone g x1 y1 cAI) tail α best bm).1
      x1 y1 cAI hWF hm1 hfk.1 hfk.2.1
    have hc3 : coreEq
        ({ (AB.fbInner heur d (x1, y1) (AB.setStone g x1 y1 cAI) tail α best bm).1 with
           board := g.board, available_moves := g.available_moves } : Game) g :=
      coreEq_of_fields rfl rfl hfk.2.2.1 hfk.2.2.2.1 hfk.2.2.2.2.1 hfk.2.2.2.2.2.1
        hfk.2.2.2.2.2.2.1 hfk.2.2.2.2.2.2.2.1 hfk.2.2.2.2.2.2.2.2
    rw [hrem]
    exact coreEq_trans
      (ih _ _ _ _ (WF_of_coreEq hc3 hWF) hndt
        (fun m hm => hsub m (List.mem_cons_of_mem _ hm)))
      hc3

end C6V

namespace C6V

theorem findBestMove_core (g : Game) (heur : String) (maxDepth : Nat) (hWF : WF g) :
    coreEq (AB.findBestMove g heur maxDepth).2 g := by
  have hscan := immWinScan_core (AB.getPrioritizedMoves g 20)
    (AB.getPrioritizedMoves g 20) g hWF (getPrioritizedMoves_subset g 20 hWF)
  simp only [AB.findBestMove]
  split
  · exact coreEq_refl g
  · split
    · rename_i r g1 heq
      rw [heq] at hscan
      exact hscan
    · rename_i g1 heq
      rw [heq] at hscan
      have hf1 := coreEq_fields hscan
      split
      · split
        · exact hscan
        · split
          · exact hscan
          · split
            · exact hscan
            · split
              · exact hscan
              · split
                · exact hscan
                · exact hscan
      · have hfb := fbOuter_core heur (maxDepth - 1) (AB.getPrioritizedMoves g 20) g1
          AB.Score.ninf AB.Score.ninf none (WF_of_coreEq hscan hWF)
          (getPrioritizedMoves_nodup g 20 hWF)
          (fun m hm => by
            rw [hf1.2.1]
            exact getPrioritizedMoves_subset g 20 hWF m hm)
        split
        · rename_i g2 s bm heq2
          rw [heq2] at hfb
          exact coreEq_trans hfb hscan
        · rename_i g2 s heq2
          rw [heq2] at hfb
          split
          · exact coreEq_trans hfb hscan
          · exact coreEq_trans hfb hscan

end C6V

namespace C6V

theorem getAiMove_core (g : Game) (depth : Nat) (hWF : WF g) :
    coreEq (getAiMove g depth).2 g := by
  simp only [getAiMove]
  have hfb := findBestMove_core g g.heuristic depth hWF
  split
  · exact coreEq_refl g
  · split
    · repeat' split
      all_goals exact coreEq_refl g
    · split
      · split
        · rename_i best g1 heq
          rw [heq] at hfb
          repeat' split
          all_goals exact hfb
        · rename_i e g1 heq
          rw [heq] at hfb
          exact hfb
      · exact coreEq_refl g

/-- C7 (amended): after `get_ai_move` returns, the caller's board grid,
available-move set, active player and opening-move flag are restored to their
pre-call values (for any well-formed state, any algorithm and any depth) — but
NOT the last-move coordinates, which the alpha-beta path may leave clobbered
(see the counterexample). -/
theorem claim7_amended (g : Game) (depth : Nat) (hWF : WF g) :
    (getAiMove g depth).2.board = g.board ∧
    (getAiMove g depth).2.available_moves = g.available_moves ∧
    (getAiMove g depth).2.current_player = g.current_player ∧
    (getAiMove g depth).2.first_move = g.first_move := by
  have h := coreEq_fields (getAiMove_core g depth hWF)
  exact ⟨h.1, h.2.1, h.2.2.1, h.2.2.2.1⟩

set_option maxRecDepth 200000

/-- C7 counterexample: on a 3×3 alpha-beta state whose last move is recorded at
row 0, a full `get_ai_move` call returns with `last_row` changed to 2 —
`find_best_move` mutates the caller's last-move coordinates and never restores
them, so the claim's "last-move coordinates equal their values before the
call" is false. -/
theorem claim7_counterexample :
    gSmallAB.last_row = some 0 ∧ (getAiMove gSmallAB 1).2.last_row = some 2 := by
  decide

/-- Witness instantiating `claim7_amended` on the concrete 3×3 alpha-beta
state. -/
theorem claim7_witness :
    WF gSmallAB ∧
    ((getAiMove gSmallAB 1).2.board = gSmallAB.board ∧
     (getAiMove gSmallAB 1).2.available_moves = gSmallAB.available_moves ∧
     (getAiMove gSmallAB 1).2.current_player = gSmallAB.current_player ∧
     (getAiMove gSmallAB 1).2.first_move = gSmallAB.first_move) :=
  ⟨by decide, claim7_amended gSmallAB 1 (by decide)⟩

end C6V

namespace C6V

/-! ### Distinctness of engine-returned move lists -/

theorem foldl_preserves {α β : Type} (P : α → Prop) (step : α → β → α)
    (h : ∀ a b, P a → P (step a b)) :
    ∀ (l : List β) (a : α), P a → P (l.foldl step a) := by
  intro l
  induction l with
  | nil => intro a ha; exact ha
  | cons c rest ih => intro a ha; exact ih (step a c) (h a c ha)

theorem foldl_preserves_mem {α β : Type} (P : α → Prop) (step : α → β → α) :
    ∀ l : List β, (∀ a b, b ∈ l → P a → P (step a b)) →
      ∀ a, P a → P (l.foldl step a) := by
  intro l
  induction l with
  | nil => intro _ a ha; exact ha
  | cons c rest ih =>
    intro h a ha
    exact ih (fun a1 b hb => h a1 b (List.mem_cons_of_mem _ hb)) (step a c)
      (h a c (List.mem_cons_self _ _) ha)

theorem sortDedup_pairwise (l : List Coord) :
    (sortDedup l).Pairwise (fun a b => coordLt a b = true) :=
  foldl_preserves (fun acc => acc.Pairwise (fun a b => coordLt a b = true))
    (fun acc m => insertSorted m acc)
    (fun acc m h => pairwise_insertSorted m acc h) l [] List.Pairwise.nil

theorem sortDedup_nodup (l : List Coord) : (sortDedup l).Nodup :=
  nodup_of_pairwise_coordLt _ (sortDedup_pairwise l)

theorem nodup_take_of_pairwise (l : List Coord) (n : Nat)
    (h : l.Pairwise (fun a b => coordLt a b = true)) : (l.take n).Nodup :=
  List.Nodup.sublist (List.take_sublist _ _) (nodup_of_pairwise_coordLt l h)

theorem nodup_pair {a b : Coord} (h : a ≠ b) : ([a, b] : List Coord).Nodup := by
  simp [h]

theorem nodup_get?_ne (l : List Coord) (hnd : l.Nodup) (i j : Nat) (hij : i ≠ j)
    (a b : Coord) (ha : l.get? i = some a) (hb : l.get? j = some b) : a ≠ b := by
  intro hab
  subst hab
  have hi : i < l.length := by
    by_contra hcon
    rw [List.get?_eq_none.mpr (Nat.le_of_not_lt hcon)] at ha
    cases ha
  exact hij (List.get?_inj hi hnd (ha.trans hb.symm))

theorem takeDistinct_nodup (n : Nat) :
    ∀ (l acc : List Coord), acc.Nodup → (MM.takeDistinct n l acc).Nodup := by
  intro l
  induction l with
  | nil => intro acc h; exact h
  | cons c rest ih =>
    intro acc hacc
    simp only [MM.takeDistinct]
    by_cases hc : c ∈ acc
    · rw [if_pos hc]
      split
      · exact hacc
      · exact ih acc hacc
    · rw [if_neg hc]
      have h2 : (acc ++ [c]).Nodup := by
        rw [List.nodup_append]
        refine ⟨hacc, List.nodup_singleton c, ?_⟩
        intro a ha hb
        rw [List.mem_singleton] at hb
        subst hb
        exact hc ha
      split
      · exact h2
      · exact ih _ h2

theorem combinations2_ne {α : Type} :
    ∀ l : List α, l.Nodup → ∀ a b, (a, b) ∈ MM.combinations2 l → a ≠ b := by
  intro l
  induction l with
  | nil => intro _ a b h; cases h
  | cons x xs ih =>
    intro hnd a b h
    obtain ⟨hx, hxs⟩ := List.nodup_cons.mp hnd
    rcases List.mem_append.mp h with h | h
    · rw [List.mem_map] at h
      obtain ⟨y, hy, heq⟩ := h
      injection heq with h1 h2
      subst h1
      subst h2
      intro hab
      exact hx (hab ▸ hy)
    · exact ih hxs a b h

theorem scorePairs_error_mem (g : Game) :
    ∀ (ps : List (Coord × Coord)) (p : Coord × Coord),
      MM.scorePairs g ps = .error p → p ∈ ps := by
  intro ps
  induction ps with
  | nil => intro p h; simp [MM.scorePairs] at h
  | cons q rest ih =>
    obtain ⟨a, b⟩ := q
    intro p h
    simp only [MM.scorePairs] at h
    split at h
    · injection h with h
      rw [← h]
      exact List.mem_cons_self _ _
    · split at h
      · rename_i p1 heq
        injection h with h
        rw [← h]
        exact List.mem_cons_of_mem _ (ih p1 heq)
      · exact absurd h (by simp)

theorem scorePairs_ok_mem (g : Game) :
    ∀ (ps : List (Coord × Coord)) (l : List (ℚ × (Coord × Coord) × Game)),
      MM.scorePairs g ps = .ok l → ∀ t ∈ l, t.2.1 ∈ ps := by
  intro ps
  induction ps with
  | nil =>
    intro l h t ht
    simp only [MM.scorePairs] at h
    injection h with h
    rw [← h] at ht
    cases ht
  | cons q rest ih =>
    obtain ⟨a, b⟩ := q
    intro l h t ht
    simp only [MM.scorePairs] at h
    split at h
    · exact absurd h (by simp)
    · split at h
      · exact absurd h (by simp)
      · rename_i l1 heq
        injection h with h
        rw [← h] at ht
        rcases List.mem_cons.mp ht with h2 | h2
        · rw [h2]
          exact List.mem_cons_self _ _
        · exact List.mem_cons_of_mem _ (ih l1 heq t h2)

theorem insertBy_perm {α : Type} (le : α → α → Bool) (x : α) :
    ∀ l : List α, (MM.insertBy le x l).Perm (x :: l) := by
  intro l
  induction l with
  | nil => exact List.Perm.refl _
  | cons c rest ih =>
    simp only [MM.insertBy]
    split
    · exact List.Perm.refl _
    · exact (List.Perm.cons c ih).trans (List.Perm.swap x c rest)

theorem sortBy_perm {α : Type} (le : α → α → Bool) :
    ∀ l : List α, (MM.sortBy le l).Perm l := by
  intro l
  induction l with
  | nil => exact List.Perm.refl _
  | cons c rest ih =>
    show (MM.insertBy le c (MM.sortBy le rest)).Perm (c :: rest)
    exact (insertBy_perm le c _).trans (List.Perm.cons c ih)

theorem filterMap_fst_sublist {fn : Coord → Option (Coord × Nat)}
    (hfn : ∀ a p, fn a = some p → p.1 = a) :
    ∀ l : List Coord, List.Sublist ((l.filterMap fn).map Prod.fst) l := by
  intro l
  induction l with
  | nil => simp
  | cons c rest ih =>
    cases hfc : fn c with
    | none =>
      rw [List.filterMap_cons_none hfc]
      exact List.Sublist.cons c ih
    | some p =>
      rw [List.filterMap_cons_some hfc, List.map_cons, hfn c p hfc]
      exact List.Sublist.cons₂ c ih

end C6V

namespace C6V

theorem getCandidateMoves_nodup (g : Game) (radius : Nat) :
    (MM.getCandidateMoves g radius).Nodup := by
  simp only [MM.getCandidateMoves]
  split
  · exact sortDedup_nodup _
  · split
    · exact sortDedup_nodup _
    · exact sortDedup_nodup _

theorem getCandidateMovesNearLastHuman_nodup (g : Game) (radius : Nat) :
    (MM.getCandidateMovesNearLastHuman g radius).Nodup := by
  simp only [MM.getCandidateMovesNearLastHuman]
  split
  · exact List.nodup_nil
  · exact sortDedup_nodup _

theorem targetedScan_pairwise (g : Game) (opponent : Char) (origins2 : List Coord) :
    ∀ (l acc : List Coord), acc.Pairwise (fun a b => coordLt a b = true) →
      (MM.targetedScan g opponent origins2 l acc).Pairwise
        (fun a b => coordLt a b = true) := by
  intro l
  induction l with
  | nil => intro acc h; exact h
  | cons a rest ih =>
    intro acc hacc
    simp only [MM.targetedScan]
    split
    · exact ih _ (pairwise_insertSorted _ _ hacc)
    · repeat' split
      all_goals
        first
          | exact hacc
          | exact pairwise_insertSorted _ _ (pairwise_insertSorted _ _ hacc)
          | exact ih _ hacc
          | exact ih _ (pairwise_insertSorted _ _ (pairwise_insertSorted _ _ hacc))

theorem fullPairScan_pairwise (g : Game) (opponent : Char) (avail : List Coord) :
    ∀ l : List Coord, (MM.fullPairScan g opponent avail l).Pairwise
      (fun a b => coordLt a b = true) := by
  intro l
  induction l with
  | nil => exact List.Pairwise.nil
  | cons a rest ih =>
    simp only [MM.fullPairScan]
    split
    · exact sortDedup_pairwise _
    · exact ih

theorem foldl_some_pair {β : Type}
    (step : (ℚ × Option (List Coord)) → β → (ℚ × Option (List Coord))) :
    ∀ l : List β,
      (∀ acc t, t ∈ l → (step acc t).2 = acc.2 ∨
        ∃ u v : Coord, (step acc t).2 = some [u, v] ∧ u ≠ v) →
      ∀ b0 : ℚ × Option (List Coord),
        (b0.2 = none ∨ ∃ u v : Coord, b0.2 = some [u, v] ∧ u ≠ v) →
        ∀ bm, (l.foldl step b0).2 = some bm → ∃ u v : Coord, bm = [u, v] ∧ u ≠ v := by
  intro l
  induction l with
  | nil =>
    intro _ b0 hb0 bm h
    rw [List.foldl_nil] at h
    rcases hb0 with h0 | ⟨u, v, h0, huv⟩
    · rw [h0] at h
      cases h
    · refine ⟨u, v, ?_, huv⟩
      rw [h0] at h
      injection h with h
      exact h.symm
  | cons c rest ih =>
    intro hstep b0 hb0 bm h
    rw [List.foldl_cons] at h
    refine ih (fun acc t ht => hstep acc t (List.mem_cons_of_mem _ ht)) (step b0 c) ?_ bm h
    rcases hstep b0 c (List.mem_cons_self _ _) with h1 | ⟨u, v, h1, huv⟩
    · rw [h1]
      exact hb0
    · exact Or.inr ⟨u, v, h1, huv⟩

end C6V


namespace C6V

theorem localCandOf_nodup (g : Game) (radius mc : Nat)
    (hav : g.available_moves.Pairwise (fun a b => coordLt a b = true)) :
    (MM.localCandOf g radius mc).Nodup := by
  simp only [MM.localCandOf]
  repeat' split
  all_goals
    first
      | exact nodup_of_pairwise_coordLt _ hav
      | exact List.Nodup.sublist (List.take_sublist _ _) (nodup_of_pairwise_coordLt _ hav)
      | exact List.Nodup.filter _ (getCandidateMovesNearLastHuman_nodup g 3)
      | exact List.Nodup.sublist (List.take_sublist _ _)
          (List.Nodup.filter _ (getCandidateMovesNearLastHuman_nodup g 3))
      | exact List.Nodup.filter _ (getCandidateMoves_nodup g radius)
      | exact List.Nodup.sublist (List.take_sublist _ _)
          (List.Nodup.filter _ (getCandidateMoves_nodup g radius))

theorem pairCands_ne (g : Game) (radius mc : Nat)
    (hav : g.available_moves.Pairwise (fun a b => coordLt a b = true)) :
    ∀ p : Coord × Coord, p ∈ MM.pairCandsOf g radius mc → p.1 ≠ p.2 := by
  intro p hp
  simp only [MM.pairCandsOf] at hp
  split at hp
  · exact combinations2_ne _ (localCandOf_nodup g radius mc hav) p.1 p.2 hp
  · split at hp
    · rw [List.mem_map] at hp
      obtain ⟨b, hb, heqp⟩ := hp
      have hfb := List.of_mem_filter hb
      rw [decide_eq_true_eq] at hfb
      rw [← heqp]
      exact fun hab => hfb hab.symm
    · cases hp

theorem blockingOf_pairwise (g : Game) (opponent : Char) (c3 : List Coord) :
    (MM.blockingOf g opponent c3).Pairwise (fun a b => coordLt a b = true) := by
  simp only [MM.blockingOf]
  repeat' split
  all_goals
    first
      | exact sortDedup_pairwise _
      | exact targetedScan_pairwise g opponent _ _ _ List.Pairwise.nil
      | exact fullPairScan_pairwise g opponent _ _
      | (refine foldl_preserves
            (fun l : List Coord => l.Pairwise (fun a b => coordLt a b = true))
            _ ?_ _ _ List.Pairwise.nil
         intro acc p h
         split <;>
           first
             | exact pairwise_insertSorted _ _ (pairwise_insertSorted _ _ h)
             | exact h)

theorem recurseAux_pair (radius mc msec : Nat) (d : Nat) (g : Game) (maxi : Bool)
    (hav : g.available_moves.Pairwise (fun a b => coordLt a b = true)) :
    ∀ bm, (MM.recurseAux radius mc msec d g maxi).2 = some bm →
      ∃ u v : Coord, bm = [u, v] ∧ u ≠ v := by
  cases d with
  | zero =>
    intro bm h
    simp only [MM.recurseAux] at h
    split at h
    · cases h
    · cases h
  | succ dl =>
    intro bm h
    simp only [MM.recurseAux] at h
    split at h
    · cases h
    · split at h
      · cases h
      · split at h
        · rename_i p heq
          have h2 : some [p.1, p.2] = some bm := h
          injection h2 with h2
          exact ⟨p.1, p.2, h2.symm,
            pairCands_ne g radius mc hav p (scorePairs_error_mem g _ p heq)⟩
        · rename_i sp heq
          refine foldl_some_pair _ _ ?_ _ (Or.inl rfl) bm h
          intro acc t ht
          have htmem : t ∈ sp := (mem_sortBy _ t _).mp ((List.take_sublist _ _).subset ht)
          have hne : t.2.1.1 ≠ t.2.1.2 :=
            pairCands_ne g radius mc hav t.2.1 (scorePairs_ok_mem g _ sp heq t htmem)
          split
          · split
            · exact Or.inr ⟨t.2.1.1, t.2.1.2, rfl, hne⟩
            · exact Or.inl rfl
          · split
            · exact Or.inr ⟨t.2.1.1, t.2.1.2, rfl, hne⟩
            · exact Or.inl rfl

end C6V

namespace C6V

theorem immediateBlockersOf_nodup (g : Game) (opp : Char) :
    (MM.immediateBlockersOf g opp).Nodup := by
  unfold MM.immediateBlockersOf
  exact sortDedup_nodup _

theorem minimaxFinal_nodup (g : Game) (depth : Nat) (maxi : Bool)
    (radius mc msec : Nat) (cands : List Coord)
    (hav : g.available_moves.Pairwise (fun a b => coordLt a b = true)) :
    (MM.minimaxFinal g depth maxi radius mc msec cands).2.Nodup := by
  simp only [MM.minimaxFinal]
  split
  · rename_i a heqa
    split
    · rename_i b heqb
      split at heqb
      · rename_i b1 heq2
        injection heqb with heqb
        subst heqb
        have hne := List.find?_some heq2
        rw [decide_eq_true_eq] at hne
        exact nodup_pair (Ne.symm hne)
      · have hne := List.find?_some heqb
        rw [decide_eq_true_eq] at hne
        exact nodup_pair (Ne.symm hne)
    · exact List.nodup_singleton _
  · split
    · rename_i bm heqbm
      split
      · obtain ⟨u, v, hbm, huv⟩ := recurseAux_pair radius mc msec depth g maxi hav bm heqbm
        rw [hbm]
        exact nodup_pair huv
      · exact takeDistinct_nodup 2 _ [] List.nodup_nil
    · exact takeDistinct_nodup 2 _ [] List.nodup_nil

theorem minimaxRest_nodup (g : Game) (depth : Nat) (maxi : Bool) (radius mc msec : Nat)
    (hav : g.available_moves.Pairwise (fun a b => coordLt a b = true)) :
    (MM.minimaxRest g depth maxi radius mc msec).2.Nodup := by
  simp only [MM.minimaxRest]
  split
  · rename_i result snd heq
    split at heq
    all_goals split at heq
    all_goals try split at heq
    all_goals
      first
        | (injection heq with h1 h2
           injection h1 with h1
           rw [← h1]
           exact nodup_take_of_pairwise _ 2 (blockingOf_pairwise g _ _))
        | (injection heq with h1 h2
           cases h1)
  · rename_i cands heq
    exact minimaxFinal_nodup g depth maxi radius mc msec cands hav

theorem minimaxFn_nodup (g : Game) (depth : Nat) (maxi : Bool) (radius mc msec : Nat)
    (hav : g.available_moves.Pairwise (fun a b => coordLt a b = true)) :
    (MM.minimaxFn g depth maxi radius mc msec).2.Nodup := by
  simp only [MM.minimaxFn]
  split
  · exact nodup_take_of_pairwise _ 2 hav
  · split
    all_goals split
    all_goals
      first
        | exact List.Nodup.sublist (List.take_sublist _ _) (immediateBlockersOf_nodup g _)
        | exact minimaxRest_nodup g depth maxi radius mc msec hav

end C6V

namespace C6V

theorem immWinScan_ok (full : List Coord) (hfull : full.Nodup) :
    ∀ (rest : List Coord) (g : Game), rest.Nodup →
      ∀ bm gout, AB.immWinScan full g rest = (some (.ok bm), gout) → bm.Nodup := by
  intro rest
  induction rest with
  | nil =>
    intro g _ bm gout h
    simp only [AB.immWinScan] at h
    obtain ⟨h1, _⟩ := Prod.mk.injEq .. |>.mp h
    cases h1
  | cons c tail ih =>
    obtain ⟨x1, y1⟩ := c
    intro g hnd bm gout h
    obtain ⟨hnotin, hndt⟩ := List.nodup_cons.mp hnd
    simp only [AB.immWinScan] at h
    split at h
    · split at h
      · obtain ⟨h1, _⟩ := Prod.mk.injEq .. |>.mp h
        injection h1 with h1
        cases h1
      · rename_i m0 hm0
        split at h
        · rename_i hne
          obtain ⟨h1, _⟩ := Prod.mk.injEq .. |>.mp h
          injection h1 with h1
          injection h1 with h1
          rw [← h1]
          exact nodup_pair (Ne.symm hne)
        · rename_i hne
          split at h
          · obtain ⟨h1, _⟩ := Prod.mk.injEq .. |>.mp h
            injection h1 with h1
            cases h1
          · rename_i m1 hm1
            obtain ⟨h1, _⟩ := Prod.mk.injEq .. |>.mp h
            injection h1 with h1
            injection h1 with h1
            rw [← h1]
            have hm0x : m0 = (x1, y1) := not_not.mp hne
            have h01 := nodup_get?_ne full hfull 0 1 (by decide) m0 m1 hm0 hm1
            exact nodup_pair (hm0x ▸ h01)
    · split at h
      · rename_i m2 hfind
        obtain ⟨h1, _⟩ := Prod.mk.injEq .. |>.mp h
        injection h1 with h1
        injection h1 with h1
        rw [← h1]
        have hm2mem : m2 ∈ tail := List.mem_of_find?_eq_some hfind
        exact nodup_pair (fun he => hnotin (he ▸ hm2mem))
      · exact ih _ hndt bm gout h

theorem fbInner_bm (heur : String) (d : Nat) (x1y1 : Coord) :
    ∀ (rest : List Coord) (g : Game) (α best : AB.Score) (bm : Option (List Coord)),
      x1y1 ∉ rest → (∀ l, bm = some l → l.Nodup) →
      ∀ l, (AB.fbInner heur d x1y1 g rest α best bm).2.2.2 = some l → l.Nodup := by
  intro rest
  induction rest with
  | nil => intro g α best bm _ hbm l h; exact hbm l h
  | cons c tail ih =>
    obtain ⟨x2, y2⟩ := c
    intro g α best bm hnotin hbm l h
    simp only [AB.fbInner] at h
    refine ih _ _ _ _ (fun hm => hnotin (List.mem_cons_of_mem _ hm)) ?_ l h
    intro l1 hl1
    split at hl1
    · injection hl1 with hl1
      rw [← hl1]
      exact nodup_pair (fun he => hnotin (he ▸ List.mem_cons_self _ _))
    · exact hbm l1 hl1

theorem fbOuter_bm (heur : String) (d : Nat) :
    ∀ (moves : List Coord) (g : Game) (α best : AB.Score) (bm : Option (List Coord)),
      moves.Nodup → (∀ l, bm = some l → l.Nodup) →
      ∀ l, (AB.fbOuter heur d g moves α best bm).2.2 = some l → l.Nodup := by
  intro moves
  induction moves with
  | nil => intro g α best bm _ hbm l h; exact hbm l h
  | cons c tail ih =>
    obtain ⟨x1, y1⟩ := c
    intro g α best bm hnd hbm l h
    obtain ⟨hnotin, hndt⟩ := List.nodup_cons.mp hnd
    simp only [AB.fbOuter] at h
    exact ih _ _ _ _ hndt
      (fun l1 hl1 => fbInner_bm heur d (x1, y1) tail _ α best bm hnotin hbm l1 hl1) l h

end C6V

namespace C6V

theorem sortBy_fst_nodup (le : Coord × Nat → Coord × Nat → Bool)
    {fn : Coord → Option (Coord × Nat)} (hfn : ∀ a p, fn a = some p → p.1 = a)
    (l : List Coord) (hl : l.Nodup) :
    ((MM.sortBy le (l.filterMap fn)).map Prod.fst).Nodup :=
  ((sortBy_perm le (l.filterMap fn)).map Prod.fst).nodup_iff.mpr
    (List.Nodup.sublist (filterMap_fst_sublist hfn l) hl)

theorem findBestMove_ok_nodup (g : Game) (heur : String) (d : Nat) (hWF : WF g) :
    ∀ bm gout, AB.findBestMove g heur d = (.ok bm, gout) → bm.Nodup := by
  intro bm gout h
  have hmnd : (AB.getPrioritizedMoves g 20).Nodup := getPrioritizedMoves_nodup g 20 hWF
  have hfngen : ∀ (val : Coord → Nat) (cond : Coord → Prop) [DecidablePred cond],
      ∀ (a : Coord) (p : Coord × Nat),
        (if cond a then some (a, val a) else none) = some p → p.1 = a := by
    intro val cond _ a p hsome
    split at hsome
    · cases hsome; rfl
    · cases hsome
  simp only [AB.findBestMove] at h
  split at h
  · simp only [Prod.mk.injEq, Except.ok.injEq] at h
    rw [← h.1]
    exact List.nodup_singleton _
  · split at h
    · rename_i r g1 heq
      simp only [Prod.mk.injEq] at h
      rw [h.1] at heq
      exact immWinScan_ok _ hmnd _ g hmnd bm g1 heq
    · rename_i g1 heq
      split at h
      · split at h
        · simp at h
        · rename_i ct0 ctRest heq2
          split at h
          · rename_i ct1 rest2
            simp only [Prod.mk.injEq, Except.ok.injEq] at h
            rw [← h.1]
            have hnd2 := sortBy_fst_nodup (fun a b : Coord × Nat => decide (b.2 ≤ a.2))
              (hfngen (fun m => AB.checkThreat g1 m.1 m.2 cPLAYER)
                (fun m => 5 ≤ AB.checkThreat g1 m.1 m.2 cPLAYER))
              (List.take 15 (AB.getPrioritizedMoves g 20))
              (List.Nodup.sublist (List.take_sublist 15 (AB.getPrioritizedMoves g 20)) hmnd)
            rw [heq2, List.map_cons, List.map_cons] at hnd2
            have hne := (List.nodup_cons.mp hnd2).1
            exact nodup_pair (fun he => hne (he ▸ List.mem_cons_self _ _))
          · split at h
            · simp at h
            · rename_i m1 hm1
              split at h
              · rename_i hne
                simp only [Prod.mk.injEq, Except.ok.injEq] at h
                rw [← h.1]
                exact nodup_pair (Ne.symm hne)
              · rename_i hne
                split at h
                · simp at h
                · rename_i m2 hm2
                  simp only [Prod.mk.injEq, Except.ok.injEq] at h
                  rw [← h.1]
                  have h12 := nodup_get?_ne _ hmnd 1 2 (by decide) m1 m2 hm1 hm2
                  exact nodup_pair ((not_not.mp hne) ▸ h12)
      · split at h
        · rename_i g2 s bm1 heq2
          simp only [Prod.mk.injEq, Except.ok.injEq] at h
          refine fbOuter_bm heur (d - 1) _ g1 AB.Score.ninf AB.Score.ninf none hmnd
            (fun l hl => by cases hl) bm ?_
          rw [heq2]
          exact congrArg some h.1
        · rename_i g2 s heq2
          split at h
          · rename_i m0 m1 hm0 hm1
            simp only [Prod.mk.injEq, Except.ok.injEq] at h
            rw [← h.1]
            exact nodup_pair (nodup_get?_ne _ hmnd 0 1 (by decide) m0 m1 hm0 hm1)
          all_goals simp at h

end C6V

namespace C6V

theorem take_fallback_props (g : Game) (hWF : WF g) (r : Nat) (hr : r ≠ 0)
    (hne : g.getAvailableMoves ≠ []) :
    (g.getAvailableMoves.take r).Nodup ∧
    (∀ m ∈ g.getAvailableMoves.take r,
      g.board.inBounds m.1 m.2 ∧ g.board.cell m.1 m.2 = '.') ∧
    (g.getAvailableMoves.take r).length = min r g.available_moves.length ∧
    (g.getAvailableMoves.take r = [] ↔ g.available_moves = []) := by
  obtain ⟨hsq, hpw, hmem, hcell⟩ := hWF
  refine ⟨nodup_take_of_pairwise _ r hpw, ?_, List.length_take .., ?_, ?_⟩
  · intro m hm
    exact hmem m (List.mem_of_mem_take hm)
  · intro htake
    rcases List.take_eq_nil_iff.mp htake with h0 | h0
    · exact absurd h0 hr
    · exact h0
  · intro hav
    exact absurd hav hne

theorem gate_pass_props (g : Game) (hWF : WF g) (r : Nat) (best : List Coord)
    (hnd : best.Nodup) (hne : best ≠ []) (hlen : best.length = r)
    (hall : ∀ m ∈ best, m ∈ g.getAvailableMoves) :
    best.Nodup ∧
    (∀ m ∈ best, g.board.inBounds m.1 m.2 ∧ g.board.cell m.1 m.2 = '.') ∧
    best.length = min r g.available_moves.length ∧
    (best = [] ↔ g.available_moves = []) := by
  obtain ⟨hsq, hpw, hmem, hcell⟩ := hWF
  have hsub : best ⊆ g.available_moves := fun m hm => hall m hm
  have hler : r ≤ g.available_moves.length := by
    rw [← hlen]
    exact (List.subperm_of_subset hnd hsub).length_le
  refine ⟨hnd, ?_, ?_, ?_, ?_⟩
  · intro m hm
    exact hmem m (hall m hm)
  · rw [hlen, Nat.min_eq_left hler]
  · intro h0
    exact absurd h0 hne
  · intro hav
    exfalso
    rcases best with _ | ⟨b, bs⟩
    · exact hne rfl
    · have hb := hall b (List.mem_cons_self _ _)
      have hb2 : b ∈ g.available_moves := hb
      rw [hav] at hb2
      cases hb2

end C6V

namespace C6V

/-- C1 (amended): for every well-formed state, `get_ai_move` returns a list of
distinct, in-bounds, currently-empty coordinates whose length is
`min required |available|` (`required` = 1 on the opening move, else 2), and
the result is empty exactly when no empty cell remains.  In particular, when
fewer empty cells than `required` remain (no legal turn exists), the result is
the non-empty truncated available list, NOT the empty list of the original
claim (see the counterexample). -/
theorem claim1_amended (g : Game) (depth : Nat) (hWF : WF g) :
    (getAiMove g depth).1.Nodup ∧
    (∀ m ∈ (getAiMove g depth).1,
      g.board.inBounds m.1 m.2 ∧ g.board.cell m.1 m.2 = '.') ∧
    (getAiMove g depth).1.length =
      min (if g.first_move then 1 else 2) g.available_moves.length ∧
    ((getAiMove g depth).1 = [] ↔ g.available_moves = []) := by
  have hpw := hWF.2.1
  simp only [getAiMove]
  split
  · rename_i hav0
    refine ⟨List.nodup_nil, ?_, ?_, ?_, ?_⟩
    · intro m hm; cases hm
    · have hzero : g.available_moves = [] := hav0
      rw [hzero]
      simp
    · intro _; exact hav0
    · intro _; rfl
  · rename_i havne
    split
    · split
      · split
        · rename_i hgate
          obtain ⟨hne, hlen, hall⟩ := hgate
          refine gate_pass_props g hWF 1 _
            (minimaxFn_nodup g depth true 2 MAX_CANDIDATES 6 hpw) hne hlen ?_
          intro m hm
          exact of_decide_eq_true ((List.all_eq_true.mp hall) m hm)
        · exact take_fallback_props g hWF 1 (by decide) havne
      · split
        · rename_i hgate
          obtain ⟨hne, hlen, hall⟩ := hgate
          refine gate_pass_props g hWF 2 _
            (minimaxFn_nodup g depth true 2 MAX_CANDIDATES 6 hpw) hne hlen ?_
          intro m hm
          exact of_decide_eq_true ((List.all_eq_true.mp hall) m hm)
        · exact take_fallback_props g hWF 2 (by decide) havne
    · split
      · split
        · rename_i best g1 heq
          split
          · split
            · rename_i hgate
              obtain ⟨hne, hlen, hall⟩ := hgate
              refine gate_pass_props g hWF 1 _
                (findBestMove_ok_nodup g g.heuristic depth hWF best g1 heq) hne hlen ?_
              intro m hm
              exact of_decide_eq_true ((List.all_eq_true.mp hall) m hm)
            · exact take_fallback_props g hWF 1 (by decide) havne
          · split
            · rename_i hgate
              obtain ⟨hne, hlen, hall⟩ := hgate
              refine gate_pass_props g hWF 2 _
                (findBestMove_ok_nodup g g.heuristic depth hWF best g1 heq) hne hlen ?_
              intro m hm
              exact of_decide_eq_true ((List.all_eq_true.mp hall) m hm)
            · exact take_fallback_props g hWF 2 (by decide) havne
        · split
          · exact take_fallback_props g hWF 1 (by decide) havne
          · exact take_fallback_props g hWF 2 (by decide) havne
      · split
        · exact take_fallback_props g hWF 1 (by decide) havne
        · exact take_fallback_props g hWF 2 (by decide) havne

/-- C1 counterexample: a 2×2 two-stone state with a single empty cell:
`first_move` is false so a legal turn needs two distinct empty cells and none
exists, yet `get_ai_move` returns the one remaining cell `[(1, 1)]` rather
than the empty list the claim requires. -/
theorem claim1_counterexample :
    gOneEmpty.first_move = false ∧
    gOneEmpty.available_moves.length = 1 ∧
    (getAiMove gOneEmpty 2).1 = [(1, 1)] := by
  decide

/-- Witness instantiating `claim1_amended` on the concrete one-empty-cell
state. -/
theorem claim1_witness :
    WF gOneEmpty ∧
    ((getAiMove gOneEmpty 2).1.Nodup ∧
     (∀ m ∈ (getAiMove gOneEmpty 2).1,
       gOneEmpty.board.inBounds m.1 m.2 ∧ gOneEmpty.board.cell m.1 m.2 = '.') ∧
     (getAiMove gOneEmpty 2).1.length =
       min (if gOneEmpty.first_move then 1 else 2) gOneEmpty.available_moves.length ∧
     ((getAiMove gOneEmpty 2).1 = [] ↔ gOneEmpty.available_moves = [])) :=
  ⟨by decide, claim1_amended gOneEmpty 2 (by decide)⟩

end C6V
